import Mathlib

/-!
# Verification of the WUWT resumable crawl engine

A shallow embedding of the core of `wuwt_scraper` (comment tree building,
comment-batch merging, the scrape/discovery state machines over the SQLite
progress ledger, the HTTP retry layer, and the rate limiter), together with
theorems settling the specified properties against this embedding.

Conventions of the embedding:
* Python `datetime` timestamps are modelled as `Nat` (epoch-like, totally
  ordered, as `datetime` values are among themselves); a nullable timestamp
  is `Option Nat`.
* Python's `list.sort` raises `TypeError` when it compares an `int` key with a
  `datetime` key; a computation that can raise is modelled in `Except Unit`.
* SQLite tables are association lists keyed by their primary key, kept in
  insertion order (which coincides with discovery order, so the
  `ORDER BY discovered_at` of the source is the table order).
* External collaborators (HTML extraction, rendering) are, as in the spec,
  inputs to the core: pages passed to the scrapers already carry the records
  the extractor collaborator would produce from them.
-/

namespace WUWT

/-! ## Comment records (`wuwt_scraper/models.py`, class `Comment`)

Only the fields the comment-merging core reads are carried; `timestamp` is
`Option Nat` (`None` = missing), `parentId` is `Option String`
(`None` = top-level). -/

structure Comment where
  id : String
  articleId : String
  authorName : String
  timestamp : Option Nat
  parentId : Option String
  depth : Nat
deriving DecidableEq, Repr, Inhabited

/-! ## Alternate numeric-id extraction
(`comments.py`, `_build_comment_tree`, lines 352-363)

The source scans `c.id` with `re.search(r"wpd-comm-(\d+)_", c.id)`; a match
requires the literal `wpd-comm-`, a maximal nonempty digit run, then `_`.
Failing that, a fully-numeric id (`c.id.isdigit()`) is its own numeric key. -/

def leadingDigits : List Char → List Char × List Char
  | [] => ([], [])
  | c :: cs =>
    if c.isDigit then
      let (ds, r) := leadingDigits cs
      (c :: ds, r)
    else ([], c :: cs)

def wpdMatchAt (cs : List Char) : Option String :=
  let pat := "wpd-comm-".toList
  if pat.isPrefixOf cs then
    match leadingDigits (cs.drop pat.length) with
    | ([], _) => none
    | (ds, r) =>
      match r with
      | '_' :: _ => some (String.mk ds)
      | _ => none
  else none

def searchWpd : List Char → Option String
  | [] => none
  | c :: cs =>
    match wpdMatchAt (c :: cs) with
    | some d => some d
    | none => searchWpd cs

def isDigitStr (s : String) : Bool :=
  !s.toList.isEmpty && s.toList.all Char.isDigit

/-- The key under which a comment is entered into the alternate numeric-id
index (`by_numeric_id`), if any. -/
def numericKey (c : Comment) : Option String :=
  match searchWpd c.id.toList with
  | some d => some d
  | none => if isDigitStr c.id then some c.id else none

/-! ## Lookup indices (`_build_comment_tree`, lines 345-363)

Python dicts map an id to the *last* object inserted under it; objects are
mutable, so the indices are modelled as maps from key to list *position*
(positions never change and ids are never mutated). -/

def findLastIdx (p : Comment → Bool) : List Comment → Option Nat
  | [] => none
  | c :: cs =>
    match findLastIdx p cs with
    | some j => some (j + 1)
    | none => if p c then some 0 else none

/-- `by_id = {c.id: c for c in comments}` — last occurrence wins. -/
def byIdIdx (l : List Comment) (k : String) : Option Nat :=
  findLastIdx (fun c => c.id == k) l

/-- `by_numeric_id` — built in list order, last occurrence wins. -/
def byNumIdx (l : List Comment) (k : String) : Option Nat :=
  findLastIdx (fun c => numericKey c == some k) l

/-- The parent lookup performed for one comment: full-id index first, then
the numeric index (`lines 366-373`). -/
def resolvedIdx (l : List Comment) (p : String) : Option Nat :=
  match byIdIdx l p with
  | some j => some j
  | none => byNumIdx l p

/-! ## Parent resolution (`_build_comment_tree`, lines 365-382)

The loop mutates each comment in place: a resolved parent sets
`depth = parent.depth + 1` (reading the parent's *current* depth), an
unresolved one demotes the comment to a root. -/

def stepAt (byId byNum : String → Option Nat) (l : List Comment) (i : Nat) :
    List Comment :=
  match l.get? i with
  | none => l
  | some c =>
    match c.parentId with
    | none => l
    | some p =>
      match byId p with
      | some j =>
        match l.get? j with
        | some pc => l.set i { c with depth := pc.depth + 1 }
        | none => l
      | none =>
        match byNum p with
        | some j =>
          match l.get? j with
          | some pc => l.set i { c with depth := pc.depth + 1 }
          | none => l
        | none => l.set i { c with parentId := none, depth := 0 }

def resolveAux (byId byNum : String → Option Nat) :
    Nat → Nat → List Comment → List Comment
  | 0, _, l => l
  | fuel + 1, i, l => resolveAux byId byNum fuel (i + 1) (stepAt byId byNum l i)

def resolveParents (l : List Comment) : List Comment :=
  resolveAux (byIdIdx l) (byNumIdx l) l.length 0 l

/-! ## Canonical sort (`_build_comment_tree`, lines 384-387)

`comments.sort(key=lambda c: (c.timestamp or 0, c.depth))`.  With
`timestamp: datetime`, a missing timestamp yields the `int` key `0`, and
Python 3 raises `TypeError` as soon as an `int` key is compared with a
`datetime` key; this happens exactly when the list holds both kinds (any
correct sort of such a list must compare the two kinds directly).  On a
uniformly-keyed list `list.sort` is a stable sort by the key, modelled by a
stable insertion sort. -/

def tsKey (c : Comment) : Nat := c.timestamp.getD 0

def sortKey (c : Comment) : Nat × Nat := (tsKey c, c.depth)

/-- Lexicographic order on `(timestamp-or-0, depth)` keys. -/
def keyLE (a b : Comment) : Prop :=
  tsKey a < tsKey b ∨ (tsKey a = tsKey b ∧ a.depth ≤ b.depth)

instance (a b : Comment) : Decidable (keyLE a b) := by
  unfold keyLE; infer_instance

def insertSorted (x : Comment) : List Comment → List Comment
  | [] => [x]
  | y :: ys => if keyLE x y then x :: y :: ys else y :: insertSorted x ys

def insertionSort : List Comment → List Comment
  | [] => []
  | x :: xs => insertSorted x (insertionSort xs)

/-- The list mixes missing and present timestamps, i.e. `int` and `datetime`
sort keys. -/
def mixedTimestamps (l : List Comment) : Bool :=
  (l.any fun c => c.timestamp.isNone) && (l.any fun c => c.timestamp.isSome)

/-- `_build_comment_tree` (lines 340-390): resolve parents, then sort by
`(timestamp or 0, depth)`; `.error ()` is the `TypeError` escaping from
`comments.sort`. -/
def buildCommentTree (l : List Comment) : Except Unit (List Comment) :=
  let r := resolveParents l
  if mixedTimestamps r then .error () else .ok (insertionSort r)

/-! ## Deduplication and the full merge (`scrape_comments`, lines 67-88)

After `_build_comment_tree` returns, `scrape_comments` walks the (already
sorted) list keeping the first occurrence of each id. -/

def dedupAux (seen : List String) : List Comment → List Comment
  | [] => []
  | c :: cs =>
    if c.id ∈ seen then dedupAux seen cs
    else c :: dedupAux (c.id :: seen) cs

def dedupById (l : List Comment) : List Comment := dedupAux [] l

/-- The merge applied by `scrape_comments` to the concatenation of all
comment batches: tree building (resolution + canonical sort) followed by
id-deduplication. -/
def mergeComments (l : List Comment) : Except Unit (List Comment) :=
  (buildCommentTree l).map dedupById

/-! ## The depth invariant of the specification (claim C1)

"depth(c) == 0 if parent_id(c) is null or its parent cannot be resolved via
the canonical-id or alternate numeric-id index, and otherwise
depth(c) == depth(parent(c)) + 1."  In the merged output an unresolved parent
reference has been nulled out, so the invariant reads: null parent forces
depth 0, and a retained parent reference points (by canonical id or by
numeric key) to a member of the set one level up. -/

def parentMatches (q : Comment) (p : String) : Prop :=
  q.id = p ∨ numericKey q = some p

def depthInvariant (out : List Comment) : Prop :=
  ∀ c ∈ out,
    (c.parentId = none → c.depth = 0) ∧
    (∀ p, c.parentId = some p →
      ∃ q ∈ out, parentMatches q p ∧ c.depth = q.depth + 1)

/-- All comments enter the builder with depth 0 (a freshly parsed batch in
which no depth hint was trusted). -/
def allDepthZero (l : List Comment) : Bool :=
  l.all fun c => c.depth == 0

/-- Every comment whose parent reference resolves refers to a comment at an
earlier input position (document order: parents precede replies). -/
def parentsPrecede (l : List Comment) : Bool :=
  (List.range l.length).all fun i =>
    match l.get? i with
    | none => true
    | some c =>
      match c.parentId with
      | none => true
      | some p =>
        match resolvedIdx l p with
        | none => true
        | some j => decide (j < i)

/-! ## Helper lemmas: the canonical sort is a stable permutation -/

theorem keyLE_of_sortKey_eq {a b : Comment} (h : sortKey a = sortKey b) :
    keyLE a b := by
  rw [sortKey, sortKey, Prod.mk.injEq] at h
  exact Or.inr ⟨h.1, le_of_eq h.2⟩

theorem insertSorted_perm (x : Comment) (s : List Comment) :
    (insertSorted x s).Perm (x :: s) := by
  induction s with
  | nil => simp [insertSorted]
  | cons y ys ih =>
    by_cases h : keyLE x y
    · simp [insertSorted, h]
    · simp only [insertSorted, if_neg h]
      exact (ih.cons y).trans (List.Perm.swap x y ys)

theorem insertionSort_perm (l : List Comment) :
    (insertionSort l).Perm l := by
  induction l with
  | nil => simp [insertionSort]
  | cons x xs ih => exact (insertSorted_perm x (insertionSort xs)).trans (ih.cons x)

theorem filter_insertSorted_pos (q : Comment → Bool) (k : Nat × Nat)
    (x : Comment) (s : List Comment) (hx : q x = true) (hxk : sortKey x = k)
    (hs : ∀ c ∈ s, q c = true → sortKey c = k) :
    (insertSorted x s).filter q = x :: s.filter q := by
  induction s with
  | nil => simp [insertSorted, hx]
  | cons y ys ih =>
    by_cases h : keyLE x y
    · simp [insertSorted, h, List.filter_cons, hx]
    · have hqy : q y = false := by
        cases hy : q y
        · rfl
        · exact absurd (keyLE_of_sortKey_eq (hxk.trans (hs y (by simp) hy).symm)) h
      simp only [insertSorted, if_neg h, List.filter_cons, hqy]
      simpa [hqy] using ih (fun c hc hqc => hs c (by simp [hc]) hqc)

theorem filter_insertSorted_neg (q : Comment → Bool) (x : Comment)
    (s : List Comment) (hx : q x = false) :
    (insertSorted x s).filter q = s.filter q := by
  induction s with
  | nil => simp [insertSorted, hx]
  | cons y ys ih =>
    by_cases h : keyLE x y
    · simp [insertSorted, h, List.filter_cons, hx]
    · simp only [insertSorted, if_neg h, List.filter_cons]
      rw [ih]

theorem filter_insertionSort (q : Comment → Bool) (k : Nat × Nat)
    (l : List Comment) (h : ∀ c ∈ l, q c = true → sortKey c = k) :
    (insertionSort l).filter q = l.filter q := by
  induction l with
  | nil => simp [insertionSort]
  | cons x xs ih =>
    have hmem : ∀ c ∈ insertionSort xs, q c = true → sortKey c = k :=
      fun c hc hqc =>
        h c (by simp [((insertionSort_perm xs).mem_iff).mp hc]) hqc
    cases hqx : q x with
    | true =>
      rw [insertionSort,
        filter_insertSorted_pos q k x (insertionSort xs) hqx
          (h x (by simp) hqx) hmem,
        ih (fun c hc hqc => h c (by simp [hc]) hqc), List.filter_cons, if_pos hqx]
    | false =>
      rw [insertionSort, filter_insertSorted_neg q x (insertionSort xs) hqx,
        ih (fun c hc hqc => h c (by simp [hc]) hqc), List.filter_cons, if_neg (by simp [hqx])]

/-! ## Helper lemmas: deduplication keeps the first occurrence per id -/

theorem dedupAux_filter (x : String) :
    ∀ (m : List Comment) (seen : List String),
      (dedupAux seen m).filter (fun c => c.id == x) =
        if x ∈ seen then []
        else (m.filter (fun c => c.id == x)).take 1 := by
  intro m
  induction m with
  | nil => intro seen; by_cases h : x ∈ seen <;> simp [dedupAux, h]
  | cons c cs ih =>
    intro seen
    rw [dedupAux]
    by_cases hc : c.id ∈ seen
    · rw [if_pos hc, ih seen]
      by_cases hcx : c.id = x
      · subst hcx; simp [hc]
      · simp [List.filter_cons, hcx]
    · rw [if_neg hc]
      by_cases hcx : c.id = x
      · subst hcx
        have hseen : (dedupAux (c.id :: seen) cs).filter (fun d => d.id == c.id) = [] := by
          rw [ih (c.id :: seen)]; simp
        simp [List.filter_cons, hseen, hc]
      · have hqc : (c.id == x) = false := by simpa using hcx
        simp only [List.filter_cons, hqc, Bool.false_eq_true, if_false]
        rw [ih (c.id :: seen)]
        simp [Ne.symm hcx]

theorem mem_dedupAux_map_id (x : String) :
    ∀ (m : List Comment) (seen : List String),
      x ∈ (dedupAux seen m).map Comment.id ↔
        (x ∈ m.map Comment.id ∧ x ∉ seen) := by
  intro m
  induction m with
  | nil => intro seen; simp [dedupAux]
  | cons c cs ih =>
    intro seen
    rw [dedupAux]
    by_cases hc : c.id ∈ seen
    · rw [if_pos hc, ih seen]
      constructor
      · rintro ⟨hmem, hsf⟩; exact ⟨by simp [hmem], hsf⟩
      · rintro ⟨hmem, hsf⟩
        rcases (by simpa using hmem : x = c.id ∨ x ∈ cs.map Comment.id) with h | h
        · exact absurd (h ▸ hc) hsf
        · exact ⟨h, hsf⟩
    · rw [if_neg hc]
      simp only [List.map_cons, List.mem_cons, ih (c.id :: seen)]
      constructor
      · rintro (rfl | ⟨hmem, hsf⟩)
        · exact ⟨Or.inl rfl, hc⟩
        · exact ⟨Or.inr hmem, fun hx => hsf (by simp [hx])⟩
      · rintro ⟨rfl | hmem, hsf⟩
        · exact Or.inl rfl
        · by_cases hcx : c.id = x
          · exact Or.inl hcx.symm
          · exact Or.inr ⟨hmem, by simp [hsf, Ne.symm hcx]⟩

theorem dedupAux_map_id_nodup :
    ∀ (m : List Comment) (seen : List String),
      ((dedupAux seen m).map Comment.id).Nodup := by
  intro m
  induction m with
  | nil => intro seen; simp [dedupAux]
  | cons c cs ih =>
    intro seen
    rw [dedupAux]
    by_cases hc : c.id ∈ seen
    · rw [if_pos hc]; exact ih seen
    · rw [if_neg hc]
      simp only [List.map_cons, List.nodup_cons]
      refine ⟨fun hmem => ?_, ih (c.id :: seen)⟩
      have := (mem_dedupAux_map_id c.id cs (c.id :: seen)).mp hmem
      simp at this

theorem dedupAux_eq_self :
    ∀ (m : List Comment) (seen : List String),
      (m.map Comment.id).Nodup → (∀ c ∈ m, c.id ∉ seen) →
      dedupAux seen m = m := by
  intro m
  induction m with
  | nil => intro seen _ _; rfl
  | cons c cs ih =>
    intro seen hnd hseen
    rw [dedupAux, if_neg (hseen c (by simp))]
    congr 1
    simp only [List.map_cons] at hnd
    refine ih (c.id :: seen) hnd.of_cons ?_
    intro d hd
    have hne : d.id ≠ c.id := by
      intro h
      have hx := List.nodup_cons.mp hnd
      exact hx.1 (h ▸ List.mem_map_of_mem Comment.id hd)
    simp [hne, hseen d (by simp [hd])]

/-! ## Helper lemmas: parent resolution mutates depth and parent links only -/

theorem map_set_eq_of_get? {α β : Type} (f : α → β) (l : List α) (i : Nat)
    (a b : α) (h : l.get? i = some a) (hf : f b = f a) :
    (l.set i b).map f = l.map f := by
  apply List.ext_get?
  intro n
  rw [List.get?_map, List.get?_map]
  by_cases hn : n = i
  · subst hn
    have hlt : n < l.length := (List.get?_eq_some.mp h).1
    rw [List.get?_set_eq_of_lt b hlt, h]
    simp [hf]
  · rw [List.get?_set_ne b l (fun hh => hn hh.symm)]

theorem stepAt_eq_or_set (f g : String → Option Nat) (l : List Comment) (i : Nat) :
    stepAt f g l i = l ∨
      ∃ c x, l.get? i = some c ∧ x.id = c.id ∧ stepAt f g l i = l.set i x := by
  unfold stepAt
  cases hgi : l.get? i with
  | none => exact Or.inl rfl
  | some c =>
    dsimp only
    cases hp : c.parentId with
    | none => exact Or.inl rfl
    | some p =>
      dsimp only
      cases f p with
      | some j =>
        dsimp only
        cases l.get? j with
        | some pc =>
          exact Or.inr
            ⟨c, { c with parentId := some p, depth := pc.depth + 1 }, rfl, rfl, rfl⟩
        | none => exact Or.inl rfl
      | none =>
        dsimp only
        cases g p with
        | some j =>
          dsimp only
          cases l.get? j with
          | some pc =>
            exact Or.inr
              ⟨c, { c with parentId := some p, depth := pc.depth + 1 }, rfl, rfl, rfl⟩
          | none => exact Or.inl rfl
        | none =>
          exact Or.inr ⟨c, { c with parentId := none, depth := 0 }, rfl, rfl, rfl⟩

theorem stepAt_map_id (f g : String → Option Nat) (l : List Comment) (i : Nat) :
    (stepAt f g l i).map Comment.id = l.map Comment.id := by
  rcases stepAt_eq_or_set f g l i with h | ⟨c, x, hgi, hid, h⟩
  · rw [h]
  · rw [h]; exact map_set_eq_of_get? Comment.id l i c x hgi hid

theorem stepAt_get?_ne (f g : String → Option Nat) (l : List Comment)
    (i j : Nat) (hji : j ≠ i) : (stepAt f g l i).get? j = l.get? j := by
  rcases stepAt_eq_or_set f g l i with h | ⟨c, x, _, _, h⟩
  · rw [h]
  · rw [h]; exact List.get?_set_ne x l (fun hh => hji hh.symm)

theorem stepAt_length (f g : String → Option Nat) (l : List Comment) (i : Nat) :
    (stepAt f g l i).length = l.length := by
  rcases stepAt_eq_or_set f g l i with h | ⟨c, x, _, _, h⟩
  · rw [h]
  · rw [h, List.length_set]

theorem resolveAux_map_id (f g : String → Option Nat) :
    ∀ (fuel i : Nat) (l : List Comment),
      (resolveAux f g fuel i l).map Comment.id = l.map Comment.id := by
  intro fuel
  induction fuel with
  | zero => intro i l; rfl
  | succ n ih =>
    intro i l
    rw [resolveAux, ih (i + 1) (stepAt f g l i), stepAt_map_id]

theorem resolveParents_map_id (l : List Comment) :
    (resolveParents l).map Comment.id = l.map Comment.id :=
  resolveAux_map_id (byIdIdx l) (byNumIdx l) l.length 0 l

/-- Unpacking a successful merge: no mixed timestamps in the resolved list,
and the output is the deduplicated canonical sort. -/
theorem mergeComments_ok {l out : List Comment} (h : mergeComments l = .ok out) :
    mixedTimestamps (resolveParents l) = false ∧
    out = dedupById (insertionSort (resolveParents l)) := by
  simp only [mergeComments, buildCommentTree] at h
  cases hmix : mixedTimestamps (resolveParents l) with
  | true => rw [hmix] at h; simp [Except.map] at h
  | false =>
    rw [hmix] at h
    simp only [Bool.false_eq_true, if_false, Except.map] at h
    exact ⟨rfl, (Except.ok.injEq _ _).mp h.symm⟩

/-- **C2 (amended).**  The merge keeps exactly one record per id and loses no
id, but the kept record is the *first occurrence in the canonically sorted
order* (deduplication runs after the `(timestamp, depth)` sort), not
unconditionally the first in input order.  When all records sharing an id
carry the same sort key — in particular when overlapping batches contain
identical copies — stability of the sort makes that the first occurrence in
input order, so only then does the earlier batch take precedence. -/
theorem c2_amended_dedup (l out : List Comment) (hm : mergeComments l = .ok out) :
    ((out.map Comment.id).Nodup) ∧
    (∀ x, x ∈ out.map Comment.id ↔ x ∈ l.map Comment.id) ∧
    (∀ x k, (∀ c ∈ resolveParents l, c.id = x → sortKey c = k) →
      out.filter (fun c => c.id == x) =
        ((resolveParents l).filter (fun c => c.id == x)).take 1) := by
  obtain ⟨hmix, hout⟩ := mergeComments_ok hm
  subst hout
  refine ⟨dedupAux_map_id_nodup _ [], fun x => ?_, fun x k hk => ?_⟩
  · rw [dedupById, mem_dedupAux_map_id]
    have hperm :
        ((insertionSort (resolveParents l)).map Comment.id).Perm
          ((resolveParents l).map Comment.id) :=
      (insertionSort_perm (resolveParents l)).map Comment.id
    rw [hperm.mem_iff, resolveParents_map_id]
    simp
  · rw [dedupById, dedupAux_filter, if_neg (List.not_mem_nil x),
      filter_insertionSort (fun c => c.id == x) k (resolveParents l)
        (fun c hc hqc => hk c hc (by simpa using hqc))]

/-- **C2 (amended), witness.**  Two identical-key copies of id 9 from two
overlapping batches: the merge keeps exactly the first (earlier-batch)
record. -/
theorem c2_amended_dedup_witness :
    mergeComments
        [⟨"9", "art", "early", some 50, none, 0⟩,
         ⟨"9", "art", "late", some 50, none, 0⟩] =
      .ok [⟨"9", "art", "early", some 50, none, 0⟩] ∧
    ([(⟨"9", "art", "early", some 50, none, 0⟩ : Comment)].filter
        (fun c => c.id == "9")) =
      ((resolveParents
          [⟨"9", "art", "early", some 50, none, 0⟩,
           ⟨"9", "art", "late", some 50, none, 0⟩]).filter
        (fun c => c.id == "9")).take 1 :=
  ⟨rfl,
    (c2_amended_dedup
        [⟨"9", "art", "early", some 50, none, 0⟩,
         ⟨"9", "art", "late", some 50, none, 0⟩]
        [⟨"9", "art", "early", some 50, none, 0⟩] rfl).2.2
      "9" (50, 0) (by decide)⟩

/-- The state of one list position after the resolution loop has processed
it: untouched for a null parent, depth recomputed from the (then-current)
record at the resolved parent position, or demoted to a root. -/
def Done (l₀ l : List Comment) (j : Nat) : Prop :=
  ∃ c₀ c, l₀.get? j = some c₀ ∧ l.get? j = some c ∧
    ((c₀.parentId = none ∧ c = c₀) ∨
     (∃ p k pc, c₀.parentId = some p ∧ resolvedIdx l₀ p = some k ∧
        l.get? k = some pc ∧ c = { c₀ with depth := pc.depth + 1 }) ∨
     (∃ p, c₀.parentId = some p ∧ resolvedIdx l₀ p = none ∧
        c = { c₀ with parentId := none, depth := 0 }))

/-! ## Comment acquisition (`comments.py`, `scrape_comments`, lines 31-94)

Effect-level model.  A fetched page is represented by what the collaborators
extract from it: the comment batch, the detected comment-page count, and
whether a wpDiscuz load-more marker is present.  The request trace records
every network call the acquisition issues. -/

inductive Request where
  | get (url : String)
  | post (url : String) (offset : Nat)
deriving DecidableEq, Repr

def Request.isPost : Request → Bool
  | .post _ _ => true
  | .get _ => false

structure PageData where
  comments : List Comment
  totalCommentPages : Nat
  hasLoadMore : Bool
deriving DecidableEq, Repr, Inhabited

inductive AjaxBody where
  | rawHtml (comments : List Comment)
  | payload (success : Bool) (comments : List Comment) (loadMore : Bool)
deriving DecidableEq, Repr

structure AjaxResp where
  status : Nat
  body : AjaxBody
deriving DecidableEq, Repr

structure CommentWorld where
  page : String → Option PageData
  ajax : Nat → AjaxResp

/-- `article_url.rstrip('/')` (`_scrape_paginated_comments`, line 141). -/
def rstripSlash (s : String) : String := s.dropRightWhile (fun c => c == '/')

def commentPageUrl (base : String) (n : Nat) : String :=
  base ++ "/comment-page-" ++ toString n ++ "/"

def altPageUrl (base : String) (n : Nat) : String :=
  base ++ "?cpage=" ++ toString n

/-- The page loop of `_scrape_paginated_comments` (lines 143-169): for each
page 2..total, try the path-style URL, fall back to the query-parameter URL,
and on double failure log and continue with the next page.  A `none` fetch
covers both a non-200 response and an exception (both are skipped). -/
def scrapePaginatedAux (w : CommentWorld) (base : String) :
    Nat → Nat → List Comment × List Request
  | 0, _ => ([], [])
  | fuel + 1, pageNum =>
    let primary := commentPageUrl base pageNum
    match w.page primary with
    | some pd =>
      let (rest, tr) := scrapePaginatedAux w base fuel (pageNum + 1)
      (pd.comments ++ rest, .get primary :: tr)
    | none =>
      let alt := altPageUrl base pageNum
      match w.page alt with
      | some pd =>
        let (rest, tr) := scrapePaginatedAux w base fuel (pageNum + 1)
        (pd.comments ++ rest, .get primary :: .get alt :: tr)
      | none =>
        let (rest, tr) := scrapePaginatedAux w base fuel (pageNum + 1)
        (rest, .get primary :: .get alt :: tr)

def scrapePaginated (w : CommentWorld) (articleUrl : String) (totalPages : Nat) :
    List Comment × List Request :=
  scrapePaginatedAux w (rstripSlash articleUrl) (totalPages - 1) 2

/-- `scrape_comments` with pre-fetched page content (lines 31-94): parse the
initial batch, fetch the paginated batches when pagination is detected, then
merge.  The AJAX load-more helper below is *not* called anywhere in this
flow — mirroring the source, where `_load_ajax_comments` has no caller. -/
def scrapeComments (w : CommentWorld) (articleUrl : String) (page1 : PageData) :
    Except Unit (List Comment) × List Request :=
  let initial := page1.comments
  let (paginated, tr) :=
    if page1.totalCommentPages > 1 then
      scrapePaginated w articleUrl page1.totalCommentPages
    else ([], [])
  (mergeComments (initial ++ paginated), tr)

/-- The loop body of `_load_ajax_comments` (lines 230-338): POST the current
offset; stop on a non-200 response, an empty batch, `success=false`, a false
`loadMore` flag, or fuel (`max_comment_load_attempts`) running out. -/
def loadAjaxAux (w : CommentWorld) (ajaxUrl : String) :
    Nat → Nat → List Comment → List Request → List Comment × List Request
  | 0, _, acc, tr => (acc, tr)
  | fuel + 1, offset, acc, tr =>
    let tr1 := tr ++ [.post ajaxUrl offset]
    let resp := w.ajax offset
    if resp.status ≠ 200 then (acc, tr1)
    else
      match resp.body with
      | .rawHtml cs =>
        if cs.isEmpty then (acc, tr1)
        else loadAjaxAux w ajaxUrl fuel (offset + cs.length) (acc ++ cs) tr1
      | .payload success cs loadMore =>
        if success then
          if cs.isEmpty then (acc, tr1)
          else
            if loadMore then
              loadAjaxAux w ajaxUrl fuel (offset + cs.length) (acc ++ cs) tr1
            else (acc ++ cs, tr1)
        else (acc, tr1)

/-- `_load_ajax_comments` (lines 230-338): returns immediately when the page
has no load-more marker, else loops up to `maxAttempts` offset-carrying
requests. -/
def loadAjaxComments (w : CommentWorld) (ajaxUrl : String) (page1 : PageData)
    (initialCount maxAttempts : Nat) : List Comment × List Request :=
  if page1.hasLoadMore then loadAjaxAux w ajaxUrl maxAttempts initialCount [] []
  else ([], [])

/-! ## Rate limiter (`utils/rate_limiter.py`)

`wait()` sleeps until `delay` seconds have passed since `_last_request`,
then stamps `_last_request` with the (post-sleep) current time; `set_delay`
mutates the interval.  Time is a `Nat` clock; a `wait` event carries how much
caller time elapsed since the previous request started. -/

structure RL where
  delay : Nat
  last : Option Nat
deriving DecidableEq, Repr

inductive RLEvent where
  | wait (advance : Nat)
  | setDelay (d : Nat)
deriving DecidableEq, Repr

/-- `RateLimiter.wait` (lines 24-32), entered at time `now`: returns the
updated state and the time at which the call returns (the fetch start). -/
def rlWait (s : RL) (now : Nat) : RL × Nat :=
  let ret :=
    match s.last with
    | some t => if now - t < s.delay then now + (s.delay - (now - t)) else now
    | none => now
  ({ s with last := some ret }, ret)

/-- Run a sequence of `wait`/`set_delay` calls, recording for each wait the
fetch start time and the delay in force at that wait. -/
def rlRun (s : RL) (t : Nat) : List RLEvent → List (Nat × Nat)
  | [] => []
  | .wait adv :: es =>
    let now := t + adv
    let (s1, ret) := rlWait s now
    (ret, s.delay) :: rlRun s1 ret es
  | .setDelay d :: es => rlRun { s with delay := d } t es

/-! ## The persistent state store (`storage/database.py`)

Association-list embedding of the SQLite tables, in insertion (= discovery)
order.  `ORDER BY discovered_at` is the table order; the `ORDER BY
retry_count` of `get_failed_articles` only permutes the returned batch and is
not modelled (the claims quantify over membership, and every returned url is
processed). -/

inductive ArtStatus where
  | pending | scraped | failed | unavailable
deriving DecidableEq, Repr

structure ArticleRow where
  title : String
  status : ArtStatus
  retryCount : Nat
  errorMessage : Option String
deriving DecidableEq, Repr

abbrev ArticlesTable := List (String × ArticleRow)

def lookupRow (t : ArticlesTable) (url : String) : Option ArticleRow :=
  (t.find? (fun e => e.1 == url)).map (fun e => e.2)

/-- `UPDATE articles SET ... WHERE url = ?`. -/
def updateRow (t : ArticlesTable) (url : String) (f : ArticleRow → ArticleRow) :
    ArticlesTable :=
  t.map (fun e => if e.1 == url then (e.1, f e.2) else e)

/-- `update_article` (lines 156-183): status `scraped`, error cleared. -/
def updateArticle (t : ArticlesTable) (url title : String) : ArticlesTable :=
  updateRow t url (fun r =>
    { r with title := title, status := .scraped, errorMessage := none })

/-- `mark_article_failed` (lines 185-194). -/
def markArticleFailed (t : ArticlesTable) (url err : String) : ArticlesTable :=
  updateRow t url (fun r =>
    { r with
      status := .failed
      errorMessage := some err
      retryCount := r.retryCount + 1 })

/-- `mark_article_unavailable` (lines 196-202). -/
def markArticleUnavailable (t : ArticlesTable) (url : String) : ArticlesTable :=
  updateRow t url (fun r => { r with status := .unavailable })

/-- `get_pending_articles` (lines 204-213). -/
def getPendingArticles (t : ArticlesTable) (limit : Nat) : List String :=
  ((t.filter (fun e => e.2.status == ArtStatus.pending)).map (fun e => e.1)).take limit

/-- `get_failed_articles` (lines 215-224). -/
def getFailedArticles (t : ArticlesTable) (maxRetries : Nat) : List String :=
  (t.filter (fun e =>
    e.2.status == ArtStatus.failed && decide (e.2.retryCount < maxRetries))).map
    (fun e => e.1)

/-- `is_article_scraped` (lines 237-245). -/
def isArticleScraped (t : ArticlesTable) (url : String) : Bool :=
  match lookupRow t url with
  | some r => r.status == ArtStatus.scraped
  | none => false

def hasUrl (t : ArticlesTable) (url : String) : Bool :=
  t.any (fun e => e.1 == url)

/-- `INSERT OR IGNORE` of one stub (`add_article_stubs` body, lines 139-154). -/
structure Stub where
  url : String
  title : String
deriving DecidableEq, Repr

def addArticleStub (t : ArticlesTable) (s : Stub) : ArticlesTable × Bool :=
  if hasUrl t s.url then (t, false)
  else (t ++ [(s.url, ⟨s.title, .pending, 0, none⟩)], true)

def addArticleStubs (t : ArticlesTable) : List Stub → ArticlesTable × Nat
  | [] => (t, 0)
  | s :: ss =>
    let (t1, added) := addArticleStub t s
    let (t2, n) := addArticleStubs t1 ss
    (t2, (if added then 1 else 0) + n)

/-- A row of the comments table (`add_comments`, lines 252-278); keyed by
`comment_id`, with `article_url` taken from the comment's article id. -/
structure CommentRow where
  articleUrl : String
  authorName : String
  timestamp : Option Nat
  parentId : Option String
  depth : Nat
deriving DecidableEq, Repr

abbrev CommentsTable := List (String × CommentRow)

def commentToRow (c : Comment) : CommentRow :=
  ⟨c.articleId, c.authorName, c.timestamp, c.parentId, c.depth⟩

/-- SQLite `INSERT OR REPLACE`: the conflicting row is deleted and the new
row inserted. -/
def insertOrReplaceComment (t : CommentsTable) (k : String) (v : CommentRow) :
    CommentsTable :=
  (t.filter (fun e => e.1 != k)) ++ [(k, v)]

/-- `add_comments` (lines 252-278): one `INSERT OR REPLACE` per comment,
keyed on the comment id alone. -/
def addComments (t : CommentsTable) (cs : List Comment) : CommentsTable :=
  cs.foldl (fun acc c => insertOrReplaceComment acc c.id (commentToRow c)) t

def lookupComment (t : CommentsTable) (k : String) : Option CommentRow :=
  (t.find? (fun e => e.1 == k)).map (fun e => e.2)

/-- Archive-month rows (`archive_months` table), keyed by `(year, month)`
(the source keys by the string `f"{year}-{month:02d}"`, in bijection with
the pair). -/
structure MonthRow where
  complete : Bool
  articleCount : Nat
deriving DecidableEq, Repr

structure Db where
  articles : ArticlesTable
  comments : CommentsTable
  months : List ((Nat × Nat) × MonthRow)
deriving DecidableEq, Repr

def hasMonth (db : Db) (ym : Nat × Nat) : Bool :=
  db.months.any (fun e => e.1 == ym)

/-- `add_archive_month` (lines 286-293): insert-or-ignore, status pending. -/
def addArchiveMonth (db : Db) (ym : Nat × Nat) : Db :=
  if hasMonth db ym then db
  else { db with months := db.months ++ [(ym, ⟨false, 0⟩)] }

/-- `mark_archive_month_complete` (lines 295-305). -/
def markMonthComplete (db : Db) (ym : Nat × Nat) (count : Nat) : Db :=
  { db with months :=
    db.months.map (fun e => if e.1 == ym then (e.1, ⟨true, count⟩) else e) }

/-- `is_archive_month_complete` (lines 318-327). -/
def isMonthComplete (db : Db) (ym : Nat × Nat) : Bool :=
  match (db.months.find? (fun e => e.1 == ym)).map (fun e => e.2) with
  | some r => r.complete
  | none => false

/-! ## Article acquisition and the scrape run
(`scrapers/article.py`, `main.py` `_scrape_articles`, `utils/http_client.py`)

The fetch world maps an article URL to a deterministic outcome; a successful
fetch carries what the article-extractor collaborator produces (its title
stands in for the extracted record).  `commentsOf` abstracts the comment
pipeline run for a scraped article (`scrape_comments`, modelled in detail
above); `.error` is an exception escaping it (for example the sort
`TypeError`), caught by the batch loop. -/

inductive FetchKind where
  | page (title : String)
  | notFound
  | err
deriving DecidableEq, Repr

structure ScrapeWorld where
  fetch : String → FetchKind
  commentsOf : String → Except Unit (List Comment)

inductive RetryOut where
  | got (title : String)
  | noneResp
  | raised
deriving DecidableEq, Repr

/-- `get_with_retry` (lines 171-192): a 404 returns `None` on the first
attempt (never retried); a transient error is retried up to the attempt
bound and then raises.  The second component is the fetch trace. -/
def getWithRetry (w : ScrapeWorld) (url : String) : Nat → RetryOut × List String
  | 0 => (.noneResp, [])
  | 1 =>
    match w.fetch url with
    | .page t => (.got t, [url])
    | .notFound => (.noneResp, [url])
    | .err => (.raised, [url])
  | n + 2 =>
    match w.fetch url with
    | .page t => (.got t, [url])
    | .notFound => (.noneResp, [url])
    | .err =>
      let r := getWithRetry w url (n + 1)
      (r.1, url :: r.2)

/-- `ArticleScraper.scrape_article` (lines 26-67): short-circuit on an
already-scraped article; `None` response marks unavailable; an exception
marks failed; success persists with status scraped. -/
def scrapeArticle (w : ScrapeWorld) (maxRetries : Nat) (url : String)
    (t : ArticlesTable) : Option String × ArticlesTable × List String :=
  if isArticleScraped t url then (none, t, [])
  else
    match getWithRetry w url maxRetries with
    | (.noneResp, tr) => (none, markArticleUnavailable t url, tr)
    | (.raised, tr) => (none, markArticleFailed t url "error", tr)
    | (.got title, tr) => (some title, updateArticle t url title, tr)

/-- One iteration of the per-article body of `_scrape_articles`
(lines 128-160): scrape the article, then run the comment pipeline; an
exception from it is caught and recorded via `mark_article_failed`. -/
def processUrl (w : ScrapeWorld) (maxRetries : Nat) (db : Db) (url : String) :
    Db × Bool × List String :=
  match scrapeArticle w maxRetries url db.articles with
  | (none, arts, tr) => ({ db with articles := arts }, false, tr)
  | (some _, arts, tr) =>
    match w.commentsOf url with
    | .error _ =>
      ({ db with articles := markArticleFailed arts url "error" }, false, tr)
    | .ok cs =>
      ({ db with articles := arts, comments := addComments db.comments cs },
        true, tr)

/-- The inner `for url in pending` loop of `_scrape_articles`, with the
early break once the global limit is reached.  Returns the db, the success
count, the urls processed, and the article-fetch trace. -/
def processBatch (w : ScrapeWorld) (maxRetries limit : Nat) :
    List String → Db → Nat → Db × Nat × List String × List String
  | [], db, cnt => (db, cnt, [], [])
  | url :: rest, db, cnt =>
    let (db1, ok, tr) := processUrl w maxRetries db url
    let cnt1 := if ok then cnt + 1 else cnt
    if limit ≠ 0 ∧ cnt1 ≥ limit then (db1, cnt1, [url], tr)
    else
      let (db2, cnt2, proc, tr2) := processBatch w maxRetries limit rest db1 cnt1
      (db2, cnt2, url :: proc, tr ++ tr2)

/-- The `while True` batch loop of `_scrape_articles` (lines 117-169),
fuel-bounded (the source loop terminates because every processed pending
article leaves the pending state; the claims hold for every fuel).  Returns
the final db, the processed urls, and the article-fetch trace. -/
def scrapeRun (w : ScrapeWorld) (maxRetries limit : Nat) :
    Nat → Db → Nat → Db × List String × List String
  | 0, db, _ => (db, [], [])
  | fuel + 1, db, cnt =>
    let batchSize := if limit = 0 then 100 else min 100 (limit - cnt)
    let pending := getPendingArticles db.articles batchSize
    if pending.isEmpty then (db, [], [])
    else
      let (db1, cnt1, proc, tr) := processBatch w maxRetries limit pending db cnt
      if limit ≠ 0 ∧ cnt1 ≥ limit then (db1, proc, tr)
      else
        let (db2, proc2, tr2) := scrapeRun w maxRetries limit fuel db1 cnt1
        (db2, proc ++ proc2, tr ++ tr2)

/-! ## Archive discovery (`scrapers/article_list.py`)

The archive world maps `(year, month, page)` to a deterministic fetch
outcome: stubs extracted by the listing-extractor collaborator, a not-found
(`get_with_retry` returned `None`), or an exception reaching the
`except` clause of `scrape_archive_month`. -/

inductive PageFetch where
  | ok (stubs : List Stub)
  | notFound
  | raise
deriving DecidableEq, Repr

structure ArchiveWorld where
  page : Nat → Nat → Nat → PageFetch

structure DiscoveryConfig where
  startDate : Nat × Nat × Nat
  endDate : Option (Nat × Nat × Nat)
deriving DecidableEq, Repr

def digitsToNat (ds : List Char) : Nat :=
  ds.foldl (fun a c => a * 10 + (c.toNat - 48)) 0

/-- A match of `/(\d{4})/(\d{2})/` at the head of the character list. -/
def ymAt : List Char → Option (Nat × Nat)
  | '/' :: a :: b :: c :: d :: '/' :: e :: f :: '/' :: _ =>
    if a.isDigit && b.isDigit && c.isDigit && d.isDigit && e.isDigit && f.isDigit
    then some (digitsToNat [a, b, c, d], digitsToNat [e, f])
    else none
  | _ => none

def searchYM : List Char → Option (Nat × Nat)
  | [] => none
  | c :: cs =>
    match ymAt (c :: cs) with
    | some r => some r
    | none => searchYM cs

/-- A match of `/(\d{4})/(\d{2})/(\d{2})/` at the head. -/
def ymdAt : List Char → Option (Nat × Nat × Nat)
  | '/' :: a :: b :: c :: d :: '/' :: e :: f :: '/' :: g :: h :: '/' :: _ =>
    if a.isDigit && b.isDigit && c.isDigit && d.isDigit && e.isDigit &&
        f.isDigit && g.isDigit && h.isDigit
    then some (digitsToNat [a, b, c, d], digitsToNat [e, f], digitsToNat [g, h])
    else none
  | _ => none

def searchYMD : List Char → Option (Nat × Nat × Nat)
  | [] => none
  | c :: cs =>
    match ymdAt (c :: cs) with
    | some r => some r
    | none => searchYMD cs

def isLeapYear (y : Nat) : Bool :=
  y % 4 == 0 && (y % 100 != 0 || y % 400 == 0)

def daysInMonth (y m : Nat) : Nat :=
  if m == 2 then (if isLeapYear y then 29 else 28)
  else if m == 4 || m == 6 || m == 9 || m == 11 then 30
  else 31

/-- `datetime(y, m, d)` succeeds (else the source's `except ValueError`
includes the stub). -/
def validDate (y m d : Nat) : Bool :=
  1 ≤ y && y ≤ 9999 && 1 ≤ m && m ≤ 12 && 1 ≤ d && d ≤ daysInMonth y m

def dateLt (a b : Nat × Nat × Nat) : Bool :=
  a.1 < b.1 || (a.1 == b.1 && (a.2.1 < b.2.1 ||
    (a.2.1 == b.2.1 && a.2.2 < b.2.2)))

/-- `_is_within_date_range` (lines 196-219). -/
def withinDateRange (cfg : DiscoveryConfig) (url : String) : Bool :=
  match searchYMD url.toList with
  | none => true
  | some (y, m, d) =>
    if validDate y m d then
      if dateLt (y, m, d) cfg.startDate then false
      else
        match cfg.endDate with
        | some e => if dateLt e (y, m, d) then false else true
        | none => true
    else true

/-- `_filter_by_date` (lines 174-194): keep a stub iff its URL date matches
the target month and the configured range; a stub without a URL date is
kept. -/
def filterByDate (cfg : DiscoveryConfig) (y m : Nat) (stubs : List Stub) :
    List Stub :=
  stubs.filter fun s =>
    match searchYM s.url.toList with
    | some (uy, um) => uy == y && um == m && withinDateRange cfg s.url
    | none => true

inductive MonthOutcome where
  | unavailable
  | raisedPartial (stubs : List Stub)
  | done (all : List Stub)
deriving DecidableEq, Repr

/-- The `page/N/` loop of `scrape_archive_month` (lines 94-111): pages
2..50, stopping on not-found, an empty page, or the 50-page safety cap; an
exception returns the partial accumulation through to the `except` clause. -/
def pagesLoop (w : ArchiveWorld) (y m : Nat) :
    Nat → Nat → List Stub → MonthOutcome
  | 0, _, acc => .done acc
  | fuel + 1, pageNum, acc =>
    match w.page y m pageNum with
    | .notFound => .done acc
    | .raise => .raisedPartial acc
    | .ok ps =>
      if ps.isEmpty then .done acc
      else pagesLoop w y m fuel (pageNum + 1) (acc ++ ps)

/-- The fetch phase of `scrape_archive_month` (lines 69-111): page 1
not-found means the month is unavailable; an exception yields the partial
(unfiltered) list; otherwise all pages up to a terminal condition. -/
def fetchMonth (w : ArchiveWorld) (y m : Nat) : MonthOutcome :=
  match w.page y m 1 with
  | .notFound => .unavailable
  | .raise => .raisedPartial []
  | .ok s1 => pagesLoop w y m 49 2 s1

/-- `scrape_archive_month` (lines 55-125): skip when already complete;
otherwise fetch, filter, and — only on the normally-terminated path — mark
the month complete with the filtered count.  The stubs are *returned*, not
persisted here. -/
def scrapeMonth (w : ArchiveWorld) (cfg : DiscoveryConfig) (y m : Nat)
    (db : Db) : List Stub × Db :=
  if isMonthComplete db (y, m) then ([], db)
  else
    match fetchMonth w y m with
    | .unavailable => ([], db)
    | .raisedPartial acc => (acc, db)
    | .done all =>
      let flt := filterByDate cfg y m all
      (flt, markMonthComplete db (y, m) flt.length)

/-- The stubs `scrape_archive_month` hands back for a not-yet-complete
month: a pure function of the world. -/
def pureStubs (w : ArchiveWorld) (cfg : DiscoveryConfig) (ym : Nat × Nat) :
    List Stub :=
  match fetchMonth w ym.1 ym.2 with
  | .unavailable => []
  | .raisedPartial acc => acc
  | .done all => filterByDate cfg ym.1 ym.2 all

/-- One month of `discover_all_articles` (lines 174-193): track the month,
skip if complete, else walk it and persist the returned stubs via
insert-or-ignore. -/
def discoverStep (w : ArchiveWorld) (cfg : DiscoveryConfig) (db : Db)
    (ym : Nat × Nat) : Db × Nat :=
  let db1 := addArchiveMonth db ym
  if isMonthComplete db1 ym then (db1, 0)
  else
    let (stubs, db2) := scrapeMonth w cfg ym.1 ym.2 db1
    let (arts, n) := addArticleStubs db2.articles stubs
    ({ db2 with articles := arts }, n)

def discoverAll (w : ArchiveWorld) (cfg : DiscoveryConfig) :
    List (Nat × Nat) → Db → Db × Nat
  | [], db => (db, 0)
  | ym :: rest, db =>
    let (db1, n) := discoverStep w cfg db ym
    let (db2, total) := discoverAll w cfg rest db1
    (db2, n + total)

/-- `generate_archive_months` (lines 27-45), fuel-bounded; the fuel exceeds
the iteration count for every start month `1..12`. -/
def genMonthsAux (ey em : Nat) : Nat → Nat → Nat → List (Nat × Nat)
  | 0, _, _ => []
  | fuel + 1, y, m =>
    if y < ey ∨ (y = ey ∧ m ≤ em) then
      (y, m) ::
        (if m + 1 > 12 then genMonthsAux ey em fuel (y + 1) 1
         else genMonthsAux ey em fuel y (m + 1))
    else []

def genMonths (sy sm ey em : Nat) : List (Nat × Nat) :=
  genMonthsAux ey em ((ey + 1 - sy) * 12 + 13) sy sm

/-- The intermediate db states of one month's discovery step, one state per
state-store operation, in program order: track the month
(`add_archive_month`), mark it complete (inside `scrape_archive_month`),
persist the returned stubs (`add_article_stubs`, in the caller). -/
def processMonthStates (w : ArchiveWorld) (cfg : DiscoveryConfig)
    (ym : Nat × Nat) (db : Db) : List Db :=
  let s1 := addArchiveMonth db ym
  if isMonthComplete s1 ym then [db, s1]
  else
    let (stubs, s2) := scrapeMonth w cfg ym.1 ym.2 s1
    let s3 := { s2 with articles := (addArticleStubs s2.articles stubs).1 }
    [db, s1, s2, s3]

/-- A month is settled in a db when it is either marked complete (so a
re-run skips it) or every stub its re-walk would return is already a row of
the articles table (so insert-or-ignore adds nothing). -/
def monthSettled (w : ArchiveWorld) (cfg : DiscoveryConfig) (db : Db)
    (ym : Nat × Nat) : Prop :=
  isMonthComplete db ym = true ∨
    ∀ s ∈ pureStubs w cfg ym, hasUrl db.articles s.url = true

/-! ## Helper lemmas: the lookup indices and their specifications -/

theorem findLastIdx_spec {p : Comment → Bool} :
    ∀ {l : List Comment} {j : Nat}, findLastIdx p l = some j →
      ∃ c, l.get? j = some c ∧ p c = true := by
  intro l
  induction l with
  | nil => intro j h; simp [findLastIdx] at h
  | cons c cs ih =>
    intro j h
    rw [findLastIdx] at h
    cases htl : findLastIdx p cs with
    | some j0 =>
      rw [htl] at h
      obtain ⟨d, hd, hpd⟩ := ih htl
      cases h
      exact ⟨d, by simpa using hd, hpd⟩
    | none =>
      rw [htl] at h
      by_cases hpc : p c
      · rw [if_pos hpc] at h
        cases h
        exact ⟨c, rfl, hpc⟩
      · rw [if_neg hpc] at h
        cases h

theorem resolvedIdx_spec {l : List Comment} {p : String} {j : Nat}
    (h : resolvedIdx l p = some j) :
    ∃ q, l.get? j = some q ∧ (q.id = p ∨ numericKey q = some p) := by
  rw [resolvedIdx] at h
  cases hid : byIdIdx l p with
  | some j0 =>
    rw [hid] at h
    cases h
    obtain ⟨q, hq, hpq⟩ := findLastIdx_spec hid
    exact ⟨q, hq, Or.inl (by simpa using hpq)⟩
  | none =>
    rw [hid] at h
    obtain ⟨q, hq, hpq⟩ := findLastIdx_spec h
    exact ⟨q, hq, Or.inr (by simpa using hpq)⟩

theorem parentsPrecede_spec (l : List Comment) (h : parentsPrecede l = true) :
    ∀ i c p j, l.get? i = some c → c.parentId = some p →
      resolvedIdx l p = some j → j < i := by
  intro i c p j hgi hp hr
  have hi : i < l.length := (List.get?_eq_some.mp hgi).1
  have hall := List.all_eq_true.mp h i (List.mem_range.mpr hi)
  simp only [hgi, hp, hr] at hall
  exact of_decide_eq_true hall

theorem allDepthZero_spec (l : List Comment) (h : allDepthZero l = true) :
    ∀ c ∈ l, c.depth = 0 := by
  intro c hc
  have := List.all_eq_true.mp h c hc
  simpa using this

theorem numericKey_congr {a b : Comment} (h : a.id = b.id) :
    numericKey a = numericKey b := by
  rw [numericKey, numericKey, h]

/-! ## Helper lemmas: the resolution loop establishes `Done` everywhere -/

theorem resolveAux_length (f g : String → Option Nat) :
    ∀ (fuel i : Nat) (l : List Comment),
      (resolveAux f g fuel i l).length = l.length := by
  intro fuel
  induction fuel with
  | zero => intro i l; rfl
  | succ n ih =>
    intro i l
    rw [resolveAux, ih (i + 1) (stepAt f g l i), stepAt_length]

theorem resolveParents_length (l : List Comment) :
    (resolveParents l).length = l.length :=
  resolveAux_length (byIdIdx l) (byNumIdx l) l.length 0 l

theorem Done_transfer {l₀ l : List Comment} (f g : String → Option Nat)
    {i j : Nat}
    (h3 : ∀ i' c p k, l₀.get? i' = some c → c.parentId = some p →
      resolvedIdx l₀ p = some k → k < i')
    (hj : j < i) (hd : Done l₀ l j) : Done l₀ (stepAt f g l i) j := by
  obtain ⟨c₀, c, hc0, hcj, hcase⟩ := hd
  refine ⟨c₀, c, hc0, ?_, ?_⟩
  · rw [stepAt_get?_ne f g l i j (Nat.ne_of_lt hj)]
    exact hcj
  · rcases hcase with h | ⟨p, k, pc, hp, hr, hk, hcdef⟩ | h
    · exact Or.inl h
    · refine Or.inr (Or.inl ⟨p, k, pc, hp, hr, ?_, hcdef⟩)
      have hki : k < j := h3 j c₀ p k hc0 hp hr
      rw [stepAt_get?_ne f g l i k (Nat.ne_of_lt (hki.trans hj))]
      exact hk
    · exact Or.inr (Or.inr h)

theorem resolveAux_done (l₀ : List Comment)
    (h3 : ∀ i c p j, l₀.get? i = some c → c.parentId = some p →
      resolvedIdx l₀ p = some j → j < i) :
    ∀ (fuel i : Nat) (l : List Comment),
      fuel + i ≤ l₀.length →
      l.length = l₀.length →
      (∀ j, i ≤ j → l.get? j = l₀.get? j) →
      (∀ j, j < i → Done l₀ l j) →
      ∀ j, j < i + fuel →
        Done l₀ (resolveAux (byIdIdx l₀) (byNumIdx l₀) fuel i l) j := by
  intro fuel
  induction fuel with
  | zero =>
    intro i l _ _ _ hdone j hj
    exact hdone j (by omega)
  | succ n ih =>
    intro i l hfi hlen huntouched hdone j hj
    rw [resolveAux]
    have hilt : i < l₀.length := by omega
    obtain ⟨c₀, hc0⟩ : ∃ c₀, l₀.get? i = some c₀ := by
      cases hc : l₀.get? i with
      | none => exact absurd (List.get?_eq_none.mp hc) (by omega)
      | some c₀ => exact ⟨c₀, rfl⟩
    have hgi : l.get? i = some c₀ := (huntouched i le_rfl).trans hc0
    have hstep : Done l₀ (stepAt (byIdIdx l₀) (byNumIdx l₀) l i) i := by
      unfold stepAt
      rw [hgi]
      dsimp only
      cases hp : c₀.parentId with
      | none =>
        exact ⟨c₀, c₀, hc0, hgi, Or.inl ⟨hp, rfl⟩⟩
      | some p =>
        dsimp only
        cases hbid : byIdIdx l₀ p with
        | some k =>
          dsimp only
          have hr : resolvedIdx l₀ p = some k := by
            simp only [resolvedIdx, hbid]
          have hki : k < i := h3 i c₀ p k hc0 hp hr
          obtain ⟨pc, hpc⟩ : ∃ pc, l.get? k = some pc := by
            cases hc : l.get? k with
            | none =>
              have := List.get?_eq_none.mp hc
              omega
            | some pc => exact ⟨pc, rfl⟩
          rw [hpc]
          dsimp only
          refine ⟨c₀, { c₀ with parentId := some p, depth := pc.depth + 1 },
            hc0, ?_, Or.inr (Or.inl ⟨p, k, pc, hp, hr, ?_, ?_⟩)⟩
          · rw [List.get?_set_eq_of_lt _ (by omega)]
          · rw [List.get?_set_ne _ _ (Nat.ne_of_lt hki).symm]
            exact hpc
          · rw [hp]
        | none =>
          dsimp only
          cases hbn : byNumIdx l₀ p with
          | some k =>
            dsimp only
            have hr : resolvedIdx l₀ p = some k := by
              simp only [resolvedIdx, hbid]
              exact hbn
            have hki : k < i := h3 i c₀ p k hc0 hp hr
            obtain ⟨pc, hpc⟩ : ∃ pc, l.get? k = some pc := by
              cases hc : l.get? k with
              | none =>
                have := List.get?_eq_none.mp hc
                omega
              | some pc => exact ⟨pc, rfl⟩
            rw [hpc]
            dsimp only
            refine ⟨c₀, { c₀ with parentId := some p, depth := pc.depth + 1 },
              hc0, ?_, Or.inr (Or.inl ⟨p, k, pc, hp, hr, ?_, ?_⟩)⟩
            · rw [List.get?_set_eq_of_lt _ (by omega)]
            · rw [List.get?_set_ne _ _ (Nat.ne_of_lt hki).symm]
              exact hpc
            · rw [hp]
          | none =>
            have hr : resolvedIdx l₀ p = none := by
              simp only [resolvedIdx, hbid]
              exact hbn
            refine ⟨c₀, { c₀ with parentId := none, depth := 0 },
              hc0, ?_, Or.inr (Or.inr ⟨p, hp, hr, rfl⟩)⟩
            rw [List.get?_set_eq_of_lt _ (by omega)]
    refine ih (i + 1) (stepAt (byIdIdx l₀) (byNumIdx l₀) l i) (by omega)
      (by rw [stepAt_length]; exact hlen) ?_ ?_ j (by omega)
    · intro j0 hj0
      rw [stepAt_get?_ne _ _ _ _ _ (by omega)]
      exact huntouched j0 (by omega)
    · intro j0 hj0
      rcases Nat.lt_or_ge j0 i with hj0i | hj0i
      · exact Done_transfer (byIdIdx l₀) (byNumIdx l₀) h3 hj0i (hdone j0 hj0i)
      · have : j0 = i := by omega
        subst this
        exact hstep

theorem resolveParents_done (l₀ : List Comment)
    (h3 : ∀ i c p j, l₀.get? i = some c → c.parentId = some p →
      resolvedIdx l₀ p = some j → j < i) :
    ∀ j, j < l₀.length → Done l₀ (resolveParents l₀) j := by
  intro j hj
  exact resolveAux_done l₀ h3 l₀.length 0 l₀ (by omega) rfl
    (fun _ _ => rfl) (fun j0 hj0 => absurd hj0 (Nat.not_lt_zero j0)) j (by omega)

/-- **C1, counterexample.**  The resolution loop only touches comments whose
`parent_id` is non-null, so a root comment entering the builder with a
nonzero depth (the parser emits these from `data-depth` attributes or
nesting inference while leaving `parent_id` null) keeps that depth in the
merged result: the claimed `depth(c) == 0` for null-parent comments fails. -/
theorem c1_counterexample :
    mergeComments [⟨"1", "a", "x", some 10, none, 3⟩] =
      .ok [⟨"1", "a", "x", some 10, none, 3⟩] ∧
    ¬ depthInvariant [⟨"1", "a", "x", some 10, none, 3⟩] := by
  constructor
  · rfl
  · intro h
    have h0 := (h ⟨"1", "a", "x", some 10, none, 3⟩ (by simp)).1 rfl
    simp at h0

/-- **C1 (amended).**  The claimed depth invariant holds provided the input
batches carry distinct ids, every comment enters the builder with depth 0,
and each resolvable parent occurs at an earlier input position than its
replies (document order).  Without those conditions it fails: a null-parent
comment keeps its incoming depth unchanged, and a reply processed before its
own parent has been re-depthed bakes in the parent's stale depth (see the
counterexample). -/
theorem c1_amended_depth_invariant (l out : List Comment)
    (h1 : (l.map Comment.id).Nodup)
    (h2 : allDepthZero l = true)
    (h3 : parentsPrecede l = true)
    (hm : mergeComments l = .ok out) :
    depthInvariant out := by
  obtain ⟨hmix, hout⟩ := mergeComments_ok hm
  have h3' := parentsPrecede_spec l h3
  have hrid : (resolveParents l).map Comment.id = l.map Comment.id :=
    resolveParents_map_id l
  have hperm : (insertionSort (resolveParents l)).Perm (resolveParents l) :=
    insertionSort_perm (resolveParents l)
  have hnodr : ((resolveParents l).map Comment.id).Nodup := hrid ▸ h1
  have hnods : ((insertionSort (resolveParents l)).map Comment.id).Nodup :=
    hnodr.perm (hperm.map Comment.id).symm
  have hded : dedupById (insertionSort (resolveParents l)) =
      insertionSort (resolveParents l) := by
    rw [dedupById]
    exact dedupAux_eq_self _ [] hnods (by simp)
  have hinvr : depthInvariant (resolveParents l) := by
    intro c hc
    obtain ⟨j, hj⟩ := List.mem_iff_get?.mp hc
    have hjlt : j < l.length := by
      have hx := (List.get?_eq_some.mp hj).1
      rwa [resolveParents_length] at hx
    obtain ⟨c₀, c', hc0, hcj, hcase⟩ := resolveParents_done l h3' j hjlt
    have hcc : c' = c := Option.some_inj.mp (hcj.symm.trans hj)
    rw [← hcc]
    rcases hcase with ⟨hpn, hceq⟩ | ⟨p, k, pc, hp, hr, hk, hceq⟩ |
      ⟨p, hp, hr, hceq⟩ <;> rw [hceq]
    · refine ⟨fun _ => allDepthZero_spec l h2 c₀ (List.get?_mem hc0), ?_⟩
      intro p hpp
      rw [hpn] at hpp
      cases hpp
    · constructor
      · intro h0
        rw [show ({ c₀ with depth := pc.depth + 1 } : Comment).parentId =
            c₀.parentId from rfl, hp] at h0
        cases h0
      · intro p' hp'
        rw [show ({ c₀ with depth := pc.depth + 1 } : Comment).parentId =
            c₀.parentId from rfl, hp, Option.some_inj] at hp'
        subst hp'
        obtain ⟨q₀, hq0, hmq0⟩ := resolvedIdx_spec hr
        have hideq : pc.id = q₀.id := by
          have hx : ((resolveParents l).map Comment.id).get? k =
              (l.map Comment.id).get? k := by rw [hrid]
          rw [List.get?_map, List.get?_map, hk, hq0] at hx
          simpa using hx
        refine ⟨pc, List.get?_mem hk, ?_, rfl⟩
        rcases hmq0 with hq | hq
        · exact Or.inl (hideq.trans hq)
        · exact Or.inr ((numericKey_congr hideq).trans hq)
    · refine ⟨fun _ => rfl, ?_⟩
      intro p' hp'
      cases hp'
  rw [hout, hded]
  intro c hc
  have hcr : c ∈ resolveParents l := hperm.mem_iff.mp hc
  obtain ⟨ha, hb⟩ := hinvr c hcr
  refine ⟨ha, fun p hp => ?_⟩
  obtain ⟨q, hq, hmq, hd⟩ := hb p hp
  exact ⟨q, hperm.mem_iff.mpr hq, hmq, hd⟩

/-- **C1 (amended), witness.**  The spec's own scenario — batch A carries
`{id=5, parent=null}`, batch B carries `{id=9, parent=5}` — satisfies the
amended hypotheses, and the merged set obeys the depth invariant with
`depth(5)=0, depth(9)=1`. -/
theorem c1_amended_depth_invariant_witness :
    (([⟨"5", "a", "u1", some 10, none, 0⟩,
       ⟨"9", "a", "u2", some 20, some "5", 0⟩] :
        List Comment).map Comment.id).Nodup ∧
    allDepthZero
      [⟨"5", "a", "u1", some 10, none, 0⟩,
       ⟨"9", "a", "u2", some 20, some "5", 0⟩] = true ∧
    parentsPrecede
      [⟨"5", "a", "u1", some 10, none, 0⟩,
       ⟨"9", "a", "u2", some 20, some "5", 0⟩] = true ∧
    depthInvariant
      [⟨"5", "a", "u1", some 10, none, 0⟩,
       ⟨"9", "a", "u2", some 20, some "5", 1⟩] :=
  ⟨by decide, by decide, by decide,
    c1_amended_depth_invariant
      [⟨"5", "a", "u1", some 10, none, 0⟩,
       ⟨"9", "a", "u2", some 20, some "5", 0⟩]
      [⟨"5", "a", "u1", some 10, none, 0⟩,
       ⟨"9", "a", "u2", some 20, some "5", 1⟩]
      (by decide) (by decide) (by decide) rfl⟩

/-- **C2, counterexample.**  Deduplication runs *after* the canonical sort,
so when two records share an id but carry different sort keys, the kept one
is the first in sorted order, not the first in input order: here the record
from the later batch (smaller timestamp) wins over the earlier batch's. -/
theorem c2_counterexample :
    mergeComments
        [⟨"9", "a", "early", some 100, none, 0⟩,
         ⟨"9", "a", "late", some 50, none, 0⟩] =
      .ok [⟨"9", "a", "late", some 50, none, 0⟩] ∧
    (⟨"9", "a", "late", some 50, none, 0⟩ : Comment) ≠
      ⟨"9", "a", "early", some 100, none, 0⟩ := by
  constructor
  · rfl
  · decide

/-- **C3 (code bug).**  `comments.sort(key=lambda c: (c.timestamp or 0,
c.depth))` is meant to let a missing timestamp sort first, but the fallback
key `0` is an `int` while present keys are `datetime`s, and Python 3 raises
`TypeError` on the first cross-kind comparison: merging a batch that mixes a
missing timestamp with a present one fails instead of sorting the missing
one first. -/
theorem c3_missing_timestamp_type_error :
    mergeComments
        [⟨"1", "a", "x", some 100, none, 0⟩,
         ⟨"2", "a", "y", none, none, 0⟩] = .error () := by
  rfl

/-- **C4 (code bug).**  `scrape_comments` never calls `_load_ajax_comments`
(or `_extract_wpdiscuz_config`): the module's own docstrings announce "AJAX
loading support" and the bounded offset-carrying loader is fully implemented,
but it has no caller.  On a page whose load-more marker is present and whose
AJAX endpoint would serve one more comment, the acquisition issues *no*
request at all (in particular no load-more POST), and the merged result it
returns omits the incrementally loadable comment that `_load_ajax_comments`
would have fetched. -/
theorem c4_ajax_loader_never_invoked :
    (scrapeComments
        ⟨fun _ => none,
         fun _ => ⟨200, .payload true [⟨"77", "a", "y", some 2, none, 0⟩] false⟩⟩
        "https://e/art/"
        ⟨[⟨"1", "a", "x", some 1, none, 0⟩], 1, true⟩).2 = [] ∧
    loadAjaxComments
        ⟨fun _ => none,
         fun _ => ⟨200, .payload true [⟨"77", "a", "y", some 2, none, 0⟩] false⟩⟩
        "https://e/ajax" ⟨[⟨"1", "a", "x", some 1, none, 0⟩], 1, true⟩ 1 3 =
      ([⟨"77", "a", "y", some 2, none, 0⟩], [.post "https://e/ajax" 1]) ∧
    (scrapeComments
        ⟨fun _ => none,
         fun _ => ⟨200, .payload true [⟨"77", "a", "y", some 2, none, 0⟩] false⟩⟩
        "https://e/art/"
        ⟨[⟨"1", "a", "x", some 1, none, 0⟩], 1, true⟩).1 =
      .ok [⟨"1", "a", "x", some 1, none, 0⟩] :=
  ⟨rfl, rfl, rfl⟩

/-! ## Helper lemmas: the archive-month ledger -/

theorem hasMonth_addArchiveMonth (db : Db) (ym : Nat × Nat) :
    hasMonth (addArchiveMonth db ym) ym = true := by
  rw [addArchiveMonth]
  by_cases h : hasMonth db ym
  · rwa [if_pos h]
  · rw [if_neg h]
    simp [hasMonth, List.any_append]

theorem monthsMark_find_self (ym : Nat × Nat) (n : Nat) :
    ∀ ms : List ((Nat × Nat) × MonthRow), ms.any (fun e => e.1 == ym) = true →
      (ms.map (fun e => if e.1 == ym then (e.1, (⟨true, n⟩ : MonthRow)) else e)).find?
          (fun e => e.1 == ym) =
        some (ym, ⟨true, n⟩) := by
  intro ms
  induction ms with
  | nil => intro h; simp at h
  | cons e es ih =>
    intro h
    by_cases he : e.1 == ym
    · simp [List.find?_cons, eq_of_beq he]
    · simp only [List.map_cons, if_neg he, List.find?_cons]
      rw [show (e.1 == ym) = false from by simpa using he]
      refine ih ?_
      simp only [List.any_cons] at h
      rcases Bool.or_eq_true_iff.mp h with h1 | h1
      · exact absurd h1 (by simpa using he)
      · exact h1

theorem isMonthComplete_mark_self (db : Db) (ym : Nat × Nat) (n : Nat)
    (h : hasMonth db ym = true) :
    isMonthComplete (markMonthComplete db ym n) ym = true := by
  rw [isMonthComplete, markMonthComplete]
  rw [monthsMark_find_self ym n db.months h]
  rfl

theorem monthsMark_find_other (ym ym' : Nat × Nat) (n : Nat) (hne : ym ≠ ym') :
    ∀ ms : List ((Nat × Nat) × MonthRow),
      (ms.map (fun e => if e.1 == ym' then (e.1, (⟨true, n⟩ : MonthRow)) else e)).find?
          (fun e => e.1 == ym) =
        ms.find? (fun e => e.1 == ym) := by
  intro ms
  induction ms with
  | nil => rfl
  | cons e es ih =>
    by_cases he : e.1 == ym'
    · have hey : (e.1 == ym) = false := by
        have hx : e.1 = ym' := eq_of_beq he
        simp [hx, Ne.symm hne]
      simp only [List.map_cons, if_pos he, List.find?_cons, hey]
      exact ih
    · simp only [List.map_cons, if_neg he, List.find?_cons]
      by_cases hey : e.1 == ym
      · simp [hey]
      · rw [show (e.1 == ym) = false from by simpa using hey]
        exact ih

theorem isMonthComplete_mark_other (db : Db) (ym ym' : Nat × Nat) (n : Nat)
    (hne : ym ≠ ym') :
    isMonthComplete (markMonthComplete db ym' n) ym = isMonthComplete db ym := by
  rw [isMonthComplete, markMonthComplete, isMonthComplete]
  rw [monthsMark_find_other ym ym' n hne db.months]

theorem isMonthComplete_addArchiveMonth (db : Db) (ym ym' : Nat × Nat) :
    isMonthComplete (addArchiveMonth db ym') ym = isMonthComplete db ym := by
  rw [addArchiveMonth]
  by_cases h : hasMonth db ym'
  · rw [if_pos h]
  · rw [if_neg h]
    rw [isMonthComplete, isMonthComplete]
    simp only [List.find?_append]
    cases hf : db.months.find? (fun e => e.1 == ym) with
    | some r => simp [Option.or]
    | none =>
      simp only [Option.or]
      by_cases hee : ym = ym'
      · subst hee
        have : db.months.find? (fun e => e.1 == ym) = none := hf
        simp [List.find?_cons]
      · simp [List.find?_cons, Ne.symm hee]

/-- **C8, counterexample.**  A reachable intermediate state of one
discovery step has the month marked complete while the stub discovered for
it is not yet persisted: `scrape_archive_month` marks the month complete
*before* returning the stubs that `discover_all_articles` then persists. -/
theorem c8_counterexample :
    ∃ s ∈ processMonthStates
        ⟨fun _ _ p => if p == 1 then .ok [⟨"u", "t"⟩] else .notFound⟩
        ⟨(2017, 1, 20), none⟩ (2020, 3) ⟨[], [], []⟩,
      isMonthComplete s (2020, 3) = true ∧ hasUrl s.articles "u" = false := by
  decide

/-- **C8 (amended).**  The source performs the two persistence steps in the
*opposite* order from the claim: on the normally-terminated path of a
not-yet-complete month, the state sequence is [initial, month tracked,
month marked complete, stubs persisted] — the completion write precedes the
stub write, and in the marked-complete state the articles table is still
exactly what it was before (so a crash between the two steps loses the
month's stubs, since the completed month is never re-walked). -/
theorem c8_amended_complete_before_stubs (w : ArchiveWorld)
    (cfg : DiscoveryConfig) (ym : Nat × Nat) (db : Db) (all : List Stub)
    (hnc : isMonthComplete (addArchiveMonth db ym) ym = false)
    (hfetch : fetchMonth w ym.1 ym.2 = .done all) :
    processMonthStates w cfg ym db =
      [db, addArchiveMonth db ym,
       markMonthComplete (addArchiveMonth db ym) ym
         (filterByDate cfg ym.1 ym.2 all).length,
       { markMonthComplete (addArchiveMonth db ym) ym
           (filterByDate cfg ym.1 ym.2 all).length with
         articles := (addArticleStubs (addArchiveMonth db ym).articles
           (filterByDate cfg ym.1 ym.2 all)).1 }] ∧
    isMonthComplete
      (markMonthComplete (addArchiveMonth db ym) ym
        (filterByDate cfg ym.1 ym.2 all).length) ym = true ∧
    (markMonthComplete (addArchiveMonth db ym) ym
      (filterByDate cfg ym.1 ym.2 all).length).articles =
      (addArchiveMonth db ym).articles := by
  refine ⟨?_, ?_, rfl⟩
  · simp only [processMonthStates, hnc, Bool.false_eq_true, if_false,
      scrapeMonth, hfetch]
    rfl
  · refine isMonthComplete_mark_self _ ym _ (hasMonth_addArchiveMonth db ym)

/-- **C8 (amended), witness.**  The concrete month walk of the
counterexample instantiates the amended ordering. -/
theorem c8_amended_complete_before_stubs_witness :
    isMonthComplete
      (addArchiveMonth (⟨[], [], []⟩ : Db) (2020, 3)) (2020, 3) = false ∧
    fetchMonth
      ⟨fun _ _ p => if p == 1 then .ok [⟨"u", "t"⟩] else .notFound⟩
      2020 3 = .done [⟨"u", "t"⟩] ∧
    isMonthComplete
      (markMonthComplete (addArchiveMonth (⟨[], [], []⟩ : Db) (2020, 3)) (2020, 3)
        (filterByDate ⟨(2017, 1, 20), none⟩ 2020 3 [⟨"u", "t"⟩]).length)
      (2020, 3) = true ∧
    (markMonthComplete (addArchiveMonth (⟨[], [], []⟩ : Db) (2020, 3)) (2020, 3)
      (filterByDate ⟨(2017, 1, 20), none⟩ 2020 3 [⟨"u", "t"⟩]).length).articles =
      (addArchiveMonth (⟨[], [], []⟩ : Db) (2020, 3)).articles :=
  ⟨by decide, by decide,
    (c8_amended_complete_before_stubs
      ⟨fun _ _ p => if p == 1 then .ok [⟨"u", "t"⟩] else .notFound⟩
      ⟨(2017, 1, 20), none⟩ (2020, 3) ⟨[], [], []⟩ [⟨"u", "t"⟩]
      (by decide) (by decide)).2.1,
    (c8_amended_complete_before_stubs
      ⟨fun _ _ p => if p == 1 then .ok [⟨"u", "t"⟩] else .notFound⟩
      ⟨(2017, 1, 20), none⟩ (2020, 3) ⟨[], [], []⟩ [⟨"u", "t"⟩]
      (by decide) (by decide)).2.2⟩

/-! ## Helper lemmas: the comments table -/

theorem find?_filterne_self_none (t : CommentsTable) (k : String) :
    (t.filter (fun e => e.1 != k)).find? (fun e => e.1 == k) = none := by
  rw [List.find?_eq_none]
  intro e hmem
  have hx := (List.mem_filter.mp hmem).2
  simp only [bne_iff_ne, ne_eq] at hx
  simp [hx]

theorem find?_filter_ne (t : CommentsTable) (k k' : String) (hne : k' ≠ k) :
    (t.filter (fun e => e.1 != k)).find? (fun e => e.1 == k') =
      t.find? (fun e => e.1 == k') := by
  induction t with
  | nil => rfl
  | cons e es ih =>
    rw [List.filter_cons]
    by_cases hek : (e.1 != k) = true
    · rw [if_pos hek]
      by_cases he : (e.1 == k') = true
      · simp [List.find?_cons, he]
      · simp only [List.find?_cons,
          show (e.1 == k') = false from by simpa using he]
        exact ih
    · rw [if_neg hek]
      have he : (e.1 == k') = false := by
        have hx : e.1 = k := by simpa using hek
        simp [hx, Ne.symm hne]
      rw [List.find?_cons, he]
      exact ih

theorem lookup_insertOrReplace_self (t : CommentsTable) (k : String)
    (v : CommentRow) :
    lookupComment (insertOrReplaceComment t k v) k = some v := by
  rw [lookupComment, insertOrReplaceComment, List.find?_append,
    find?_filterne_self_none]
  simp [List.find?_cons, Option.or]

theorem lookup_insertOrReplace_ne (t : CommentsTable) (k : String)
    (v : CommentRow) (k' : String) (h : k' ≠ k) :
    lookupComment (insertOrReplaceComment t k v) k' = lookupComment t k' := by
  rw [lookupComment, insertOrReplaceComment, List.find?_append,
    find?_filter_ne t k k' h, lookupComment]
  cases hf : t.find? (fun e => e.1 == k') with
  | some e => simp [Option.or]
  | none =>
    simp [Option.or, List.find?_cons,
      show (k == k') = false from by simp [Ne.symm h]]

theorem keys_insertOrReplace_nodup (t : CommentsTable) (k : String)
    (v : CommentRow) (h : (t.map Prod.fst).Nodup) :
    ((insertOrReplaceComment t k v).map Prod.fst).Nodup := by
  rw [insertOrReplaceComment, List.map_append]
  rw [List.nodup_append]
  refine ⟨((List.filter_sublist t).map Prod.fst).nodup h, by simp, ?_⟩
  intro x hx hxk
  simp only [List.map_cons, List.map_nil, List.mem_singleton] at hxk
  obtain ⟨e, he, hfst⟩ := List.mem_map.mp hx
  have := (List.mem_filter.mp he).2
  simp only [bne_iff_ne, ne_eq] at this
  exact this (hfst.trans hxk)

theorem addComments_nodup :
    ∀ (cs : List Comment) (t : CommentsTable), (t.map Prod.fst).Nodup →
      ((addComments t cs).map Prod.fst).Nodup := by
  intro cs
  induction cs with
  | nil => intro t h; exact h
  | cons c cs ih =>
    intro t h
    exact ih _ (keys_insertOrReplace_nodup t c.id (commentToRow c) h)

/-- **C10 (confirmed).**  Comment persistence is keyed on the comment id
alone: `INSERT OR REPLACE` silently overwrites an existing row with the same
id — even one belonging to a different article — touching no other key, and
never raising (`addComments` is total).  Key-uniqueness of the comments
store is preserved by every write. -/
theorem c10_comment_store_overwrite (t : CommentsTable) (cs : List Comment)
    (hnod : (t.map Prod.fst).Nodup) :
    ((addComments t cs).map Prod.fst).Nodup ∧
    (∀ c : Comment,
      lookupComment (addComments t [c]) c.id = some (commentToRow c)) ∧
    (∀ (c : Comment) (k : String), k ≠ c.id →
      lookupComment (addComments t [c]) k = lookupComment t k) := by
  refine ⟨addComments_nodup cs t hnod, fun c => ?_, fun c k hk => ?_⟩
  · exact lookup_insertOrReplace_self t c.id (commentToRow c)
  · exact lookup_insertOrReplace_ne t c.id (commentToRow c) k hk

/-- **C10, witness.**  A stored comment with id 9 on article A is silently
overwritten by an incoming comment with id 9 on article B. -/
theorem c10_comment_store_overwrite_witness :
    (([("9", (⟨"A", "alice", some 1, none, 0⟩ : CommentRow))] :
        CommentsTable).map Prod.fst).Nodup ∧
    lookupComment
        (addComments [("9", ⟨"A", "alice", some 1, none, 0⟩)]
          [⟨"9", "B", "bob", some 2, none, 0⟩]) "9" =
      some (commentToRow ⟨"9", "B", "bob", some 2, none, 0⟩) :=
  ⟨by decide,
    (c10_comment_store_overwrite [("9", ⟨"A", "alice", some 1, none, 0⟩)]
        [⟨"9", "B", "bob", some 2, none, 0⟩] (by decide)).2.1
      ⟨"9", "B", "bob", some 2, none, 0⟩⟩

/-! ## Helper lemmas: the rate limiter -/

theorem rlWait_ret_ge {s : RL} {u now : Nat} (hl : s.last = some u)
    (hu : u ≤ now) : u + s.delay ≤ (rlWait s now).2 := by
  rw [rlWait, hl]
  dsimp only
  by_cases h : now - u < s.delay
  · rw [if_pos h]
    omega
  · rw [if_neg h]
    omega

theorem rlWait_last (s : RL) (now : Nat) :
    (rlWait s now).1.last = some (rlWait s now).2 := rfl

theorem rlWait_delay (s : RL) (now : Nat) : (rlWait s now).1.delay = s.delay :=
  rfl

theorem rlRun_head_ge :
    ∀ (events : List RLEvent) (s : RL) (t u : Nat), s.last = some u → u ≤ t →
      ∀ a ∈ (rlRun s t events).head?, u + a.2 ≤ a.1 := by
  intro events
  induction events with
  | nil => intro s t u _ _ a ha; simp [rlRun] at ha
  | cons e es ih =>
    intro s t u hl hu a ha
    cases e with
    | wait adv =>
      rw [rlRun] at ha
      simp only [Option.mem_def, List.head?_cons, Option.some.injEq] at ha
      subst ha
      exact rlWait_ret_ge hl (by omega)
    | setDelay d =>
      rw [rlRun] at ha
      exact ih { s with delay := d } t u hl hu a ha

/-- **C9 (confirmed).**  For any sequence of fetches (`wait` calls, each
preceded by an arbitrary amount of caller time) interleaved with runtime
delay changes (`set_delay`), any two consecutive fetch start times satisfy
`t2 - t1 >= d2`, where `d2` is the delay in force at the second fetch: the
limiter blocks until the current delay has elapsed since the previous
request. -/
theorem c9_rate_limiter_interval (events : List RLEvent) (d0 t0 : Nat) :
    List.Chain' (fun a b => a.1 + b.2 ≤ b.1) (rlRun ⟨d0, none⟩ t0 events) := by
  suffices h : ∀ (es : List RLEvent) (s : RL) (t : Nat),
      (∀ u, s.last = some u → u ≤ t) →
      List.Chain' (fun a b => a.1 + b.2 ≤ b.1) (rlRun s t es) by
    exact h events ⟨d0, none⟩ t0 (by intro u hu; cases hu)
  intro es
  induction es with
  | nil => intro s t _; exact List.chain'_nil
  | cons e es ih =>
    intro s t hlast
    cases e with
    | wait adv =>
      rw [rlRun]
      rw [List.chain'_cons']
      constructor
      · intro y hy
        exact rlRun_head_ge es (rlWait s (t + adv)).1 (rlWait s (t + adv)).2
          (rlWait s (t + adv)).2 (rlWait_last s (t + adv)) le_rfl y hy
      · refine ih (rlWait s (t + adv)).1 (rlWait s (t + adv)).2 ?_
        intro u hu
        rw [rlWait_last s (t + adv)] at hu
        exact le_of_eq (Option.some_inj.mp hu).symm
    | setDelay d =>
      rw [rlRun]
      exact ih { s with delay := d } t (by intro u hu; exact hlast u hu)

/-! ## Helper lemmas: the articles table and the scrape run -/

theorem find?_updateRow_self (t : ArticlesTable) (url : String)
    (f : ArticleRow → ArticleRow) :
    (updateRow t url f).find? (fun e => e.1 == url) =
      (t.find? (fun e => e.1 == url)).map (fun e => (e.1, f e.2)) := by
  induction t with
  | nil => rfl
  | cons e es ih =>
    rw [updateRow, List.map_cons, List.find?_cons, List.find?_cons]
    by_cases he : (e.1 == url) = true
    · rw [if_pos he]
      simp [he]
    · rw [if_neg he]
      simp only [he]
      exact ih

theorem find?_updateRow_ne (t : ArticlesTable) (u : String)
    (f : ArticleRow → ArticleRow) (url : String) (h : u ≠ url) :
    (updateRow t u f).find? (fun e => e.1 == url) =
      t.find? (fun e => e.1 == url) := by
  induction t with
  | nil => rfl
  | cons e es ih =>
    rw [updateRow, List.map_cons, List.find?_cons, List.find?_cons]
    by_cases heu : (e.1 == u) = true
    · rw [if_pos heu]
      have hne : (e.1 == url) = false := by
        simp [eq_of_beq heu, h]
      simp only [hne]
      exact ih
    · rw [if_neg heu]
      by_cases hp : (e.1 == url) = true
      · simp [hp]
      · simp only [show (e.1 == url) = false from by simpa using hp]
        exact ih

theorem lookupRow_updateRow_self (t : ArticlesTable) (url : String)
    (f : ArticleRow → ArticleRow) :
    lookupRow (updateRow t url f) url = (lookupRow t url).map f := by
  rw [lookupRow, lookupRow, find?_updateRow_self]
  cases t.find? (fun e => e.1 == url) <;> rfl

theorem lookupRow_updateRow_ne (t : ArticlesTable) (u : String)
    (f : ArticleRow → ArticleRow) (url : String) (h : u ≠ url) :
    lookupRow (updateRow t u f) url = lookupRow t url := by
  rw [lookupRow, find?_updateRow_ne t u f url h, lookupRow]

theorem keys_updateRow (t : ArticlesTable) (u : String)
    (f : ArticleRow → ArticleRow) :
    (updateRow t u f).map Prod.fst = t.map Prod.fst := by
  induction t with
  | nil => rfl
  | cons e es ih =>
    rw [updateRow, List.map_cons, List.map_cons, List.map_cons]
    by_cases he : (e.1 == u) = true
    · rw [if_pos he]
      exact congrArg (List.cons e.1) ih
    · rw [if_neg he]
      exact congrArg (List.cons e.1) ih

theorem lookupRow_of_mem_nodup {t : ArticlesTable} {u : String}
    {r : ArticleRow} (hnod : (t.map Prod.fst).Nodup) (hmem : (u, r) ∈ t) :
    lookupRow t u = some r := by
  induction t with
  | nil => cases hmem
  | cons e es ih =>
    rw [lookupRow, List.find?_cons]
    rcases List.mem_cons.mp hmem with heq | htl
    · rw [← heq]
      simp
    · by_cases he : (e.1 == u) = true
      · exfalso
        have hx : e.1 = u := eq_of_beq he
        rw [List.map_cons, List.nodup_cons] at hnod
        exact hnod.1 (hx ▸ List.mem_map_of_mem Prod.fst htl)
      · simp only [he]
        rw [List.map_cons, List.nodup_cons] at hnod
        exact ih hnod.2 htl

theorem mem_getPendingArticles {t : ArticlesTable} {n : Nat} {u : String}
    (h : u ∈ getPendingArticles t n) :
    ∃ e ∈ t, e.1 = u ∧ e.2.status = ArtStatus.pending := by
  rw [getPendingArticles] at h
  have h2 := List.take_subset _ _ h
  obtain ⟨e, he, hfst⟩ := List.mem_map.mp h2
  have hx := List.mem_filter.mp he
  exact ⟨e, hx.1, hfst, by simpa using hx.2⟩

theorem not_mem_getPending_of_status {t : ArticlesTable} {n : Nat}
    {url : String} {row : ArticleRow} (hnod : (t.map Prod.fst).Nodup)
    (hrow : lookupRow t url = some row)
    (hst : row.status ≠ ArtStatus.pending) :
    url ∉ getPendingArticles t n := by
  intro hmem
  obtain ⟨e, het, hfst, hpend⟩ := mem_getPendingArticles hmem
  have hx : lookupRow t url = some e.2 :=
    lookupRow_of_mem_nodup hnod (by rw [← hfst]; exact het)
  rw [hrow] at hx
  exact hst ((Option.some_inj.mp hx) ▸ hpend)

theorem not_mem_getFailed_of_status {t : ArticlesTable} {m : Nat}
    {url : String} {row : ArticleRow} (hnod : (t.map Prod.fst).Nodup)
    (hrow : lookupRow t url = some row)
    (hst : row.status ≠ ArtStatus.failed) :
    url ∉ getFailedArticles t m := by
  intro hmem
  rw [getFailedArticles] at hmem
  obtain ⟨e, he, hfst⟩ := List.mem_map.mp hmem
  have hx := List.mem_filter.mp he
  have hfail : e.2.status = ArtStatus.failed := by
    have := hx.2
    simp only [Bool.and_eq_true, beq_iff_eq] at this
    exact this.1
  have hy : lookupRow t url = some e.2 :=
    lookupRow_of_mem_nodup hnod (by rw [← hfst]; exact hx.1)
  rw [hrow] at hy
  exact hst ((Option.some_inj.mp hy) ▸ hfail)

theorem getWithRetry_trace (w : ScrapeWorld) (u : String) :
    ∀ n, ∀ x ∈ (getWithRetry w u n).2, x = u := by
  intro n
  induction n with
  | zero => intro x hx; simp [getWithRetry] at hx
  | succ m ih =>
    intro x hx
    cases m with
    | zero =>
      rw [show getWithRetry w u 1 =
          (match w.fetch u with
           | .page t => (.got t, [u])
           | .notFound => (.noneResp, [u])
           | .err => (.raised, [u])) from rfl] at hx
      revert hx
      cases w.fetch u <;> intro hx <;> simpa using hx
    | succ k =>
      rw [show getWithRetry w u (k + 2) =
          (match w.fetch u with
           | .page t => (.got t, [u])
           | .notFound => (.noneResp, [u])
           | .err =>
             ((getWithRetry w u (k + 1)).1,
              u :: (getWithRetry w u (k + 1)).2)) from rfl] at hx
      revert hx
      cases w.fetch u with
      | page t => intro hx; simpa using hx
      | notFound => intro hx; simpa using hx
      | err =>
        intro hx
        dsimp only at hx
        rcases List.mem_cons.mp hx with h | h
        · exact h
        · exact ih x h

theorem scrapeArticle_effects (w : ScrapeWorld) (maxR : Nat) (u : String)
    (t : ArticlesTable) :
    ((scrapeArticle w maxR u t).2.1.map Prod.fst = t.map Prod.fst) ∧
    (∀ url, u ≠ url →
      lookupRow (scrapeArticle w maxR u t).2.1 url = lookupRow t url) ∧
    (∀ x ∈ (scrapeArticle w maxR u t).2.2, x = u) := by
  rw [scrapeArticle]
  by_cases hs : isArticleScraped t u
  · rw [if_pos hs]
    exact ⟨rfl, fun _ _ => rfl, by simp⟩
  · rw [if_neg hs]
    rcases hg : getWithRetry w u maxR with ⟨o, tr⟩
    have htr : ∀ x ∈ tr, x = u := by
      intro x hx
      exact getWithRetry_trace w u maxR x (by rw [hg]; exact hx)
    cases o with
    | noneResp =>
      simp only [markArticleUnavailable]
      exact ⟨keys_updateRow t u _, fun url h => lookupRow_updateRow_ne t u _ url h, htr⟩
    | raised =>
      simp only [markArticleFailed]
      exact ⟨keys_updateRow t u _, fun url h => lookupRow_updateRow_ne t u _ url h, htr⟩
    | got title =>
      simp only [updateArticle]
      exact ⟨keys_updateRow t u _, fun url h => lookupRow_updateRow_ne t u _ url h, htr⟩

theorem processUrl_effects (w : ScrapeWorld) (maxR : Nat) (db : Db)
    (u : String) :
    ((processUrl w maxR db u).1.articles.map Prod.fst =
      db.articles.map Prod.fst) ∧
    (∀ url, u ≠ url →
      lookupRow (processUrl w maxR db u).1.articles url =
        lookupRow db.articles url) ∧
    (∀ x ∈ (processUrl w maxR db u).2.2, x = u) := by
  rw [processUrl]
  rcases hs : scrapeArticle w maxR u db.articles with ⟨res, arts, tr⟩
  have he := scrapeArticle_effects w maxR u db.articles
  rw [hs] at he
  dsimp only at he
  cases res with
  | none => exact he
  | some title =>
    cases w.commentsOf u with
    | error e =>
      refine ⟨?_, ?_, he.2.2⟩
      · rw [show (markArticleFailed arts u "error").map Prod.fst =
            arts.map Prod.fst from keys_updateRow arts u _]
        exact he.1
      · intro url h
        rw [show lookupRow (markArticleFailed arts u "error") url =
            lookupRow arts url from lookupRow_updateRow_ne arts u _ url h]
        exact he.2.1 url h
    | ok cs => exact he

theorem processBatch_preserves (w : ScrapeWorld) (maxR limit : Nat) :
    ∀ (urls : List String) (db : Db) (cnt : Nat) (url : String),
      (∀ u ∈ urls, u ≠ url) →
      ((processBatch w maxR limit urls db cnt).1.articles.map Prod.fst =
        db.articles.map Prod.fst) ∧
      (lookupRow (processBatch w maxR limit urls db cnt).1.articles url =
        lookupRow db.articles url) ∧
      url ∉ (processBatch w maxR limit urls db cnt).2.2.1 ∧
      (∀ x ∈ (processBatch w maxR limit urls db cnt).2.2.2, x ≠ url) := by
  intro urls
  induction urls with
  | nil =>
    intro db cnt url _
    exact ⟨rfl, rfl, by simp [processBatch], by simp [processBatch]⟩
  | cons u rest ih =>
    intro db cnt url hne
    have hu : u ≠ url := hne u (by simp)
    have hpe := processUrl_effects w maxR db u
    rw [processBatch]
    rcases hp : processUrl w maxR db u with ⟨db1, ok, tr⟩
    rw [hp] at hpe
    dsimp only at hpe ⊢
    by_cases hbrk : limit ≠ 0 ∧ (if ok then cnt + 1 else cnt) ≥ limit
    · rw [if_pos hbrk]
      refine ⟨hpe.1, hpe.2.1 url hu, ?_, ?_⟩
      · simp [Ne.symm hu]
      · intro x hx
        rw [hpe.2.2 x hx]
        exact hu
    · rw [if_neg hbrk]
      rcases hr : processBatch w maxR limit rest db1 (if ok then cnt + 1 else cnt)
        with ⟨db2, cnt2, proc, tr2⟩
      have hih := ih db1 (if ok then cnt + 1 else cnt) url
        (fun v hv => hne v (by simp [hv]))
      rw [hr] at hih
      dsimp only at hih ⊢
      refine ⟨hih.1.trans hpe.1, hih.2.1.trans (hpe.2.1 url hu), ?_, ?_⟩
      · intro hmem
        rcases List.mem_cons.mp hmem with h | h
        · exact hu h.symm
        · exact hih.2.2.1 h
      · intro x hx
        rcases List.mem_append.mp hx with h | h
        · rw [hpe.2.2 x h]; exact hu
        · exact hih.2.2.2 x h

theorem scrapeRun_preserves (w : ScrapeWorld) (maxR limit : Nat) :
    ∀ (fuel : Nat) (db : Db) (cnt : Nat) (url : String) (row : ArticleRow),
      (db.articles.map Prod.fst).Nodup →
      lookupRow db.articles url = some row →
      row.status ≠ ArtStatus.pending →
      url ∉ (scrapeRun w maxR limit fuel db cnt).2.1 ∧
      url ∉ (scrapeRun w maxR limit fuel db cnt).2.2 ∧
      lookupRow (scrapeRun w maxR limit fuel db cnt).1.articles url =
        some row := by
  intro fuel
  induction fuel with
  | zero =>
    intro db cnt url row _ hrow _
    exact ⟨by simp [scrapeRun], by simp [scrapeRun], hrow⟩
  | succ n ih =>
    intro db cnt url row hnod hrow hst
    rw [scrapeRun]
    by_cases hpe : (getPendingArticles db.articles
        (if limit = 0 then 100 else min 100 (limit - cnt))).isEmpty
    · rw [if_pos hpe]
      exact ⟨by simp, by simp, hrow⟩
    · rw [if_neg hpe]
      have hnotin : url ∉ getPendingArticles db.articles
          (if limit = 0 then 100 else min 100 (limit - cnt)) :=
        not_mem_getPending_of_status hnod hrow hst
      have hall : ∀ u ∈ getPendingArticles db.articles
          (if limit = 0 then 100 else min 100 (limit - cnt)), u ≠ url := by
        intro u hu heq
        exact hnotin (heq ▸ hu)
      have hb := processBatch_preserves w maxR limit
        (getPendingArticles db.articles
          (if limit = 0 then 100 else min 100 (limit - cnt))) db cnt url hall
      rcases hp : processBatch w maxR limit
          (getPendingArticles db.articles
            (if limit = 0 then 100 else min 100 (limit - cnt))) db cnt
        with ⟨db1, cnt1, proc, tr⟩
      rw [hp] at hb
      dsimp only at hb ⊢
      by_cases hbrk : limit ≠ 0 ∧ cnt1 ≥ limit
      · rw [if_pos hbrk]
        exact ⟨hb.2.2.1, fun hx => hb.2.2.2 url hx rfl, hb.2.1.trans hrow⟩
      · rw [if_neg hbrk]
        rcases hr : scrapeRun w maxR limit n db1 cnt1 with ⟨db2, proc2, tr2⟩
        have hih := ih db1 cnt1 url row (hb.1 ▸ hnod) (hb.2.1.trans hrow) hst
        rw [hr] at hih
        dsimp only at hih
        refine ⟨?_, ?_, hih.2.2⟩
        · intro hx
          rcases List.mem_append.mp hx with h | h
          · exact hb.2.2.1 h
          · exact hih.1 h
        · intro hx
          rcases List.mem_append.mp hx with h | h
          · exact hb.2.2.2 url h rfl
          · exact hih.2.1 h

/-- **C5 (confirmed).**  An article whose stored status is `scraped` is
never re-touched: `scrape_article` returns immediately with no fetch and no
write, and a whole re-run of the scrape phase (which batch-pulls only
`pending` articles) never processes it, never fetches it, and leaves its row
bit-for-bit unchanged — so only still-`pending`/`failed` articles can be
re-processed after a mid-batch crash. -/
theorem c5_rerun_never_touches_scraped (w : ScrapeWorld)
    (maxR limit fuel cnt : Nat) (db : Db) (url : String) (row : ArticleRow)
    (hnod : (db.articles.map Prod.fst).Nodup)
    (hrow : lookupRow db.articles url = some row)
    (hst : row.status = ArtStatus.scraped) :
    (∀ t : ArticlesTable, lookupRow t url = some row →
      scrapeArticle w maxR url t = (none, t, [])) ∧
    url ∉ (scrapeRun w maxR limit fuel db cnt).2.1 ∧
    url ∉ (scrapeRun w maxR limit fuel db cnt).2.2 ∧
    lookupRow (scrapeRun w maxR limit fuel db cnt).1.articles url =
      some row := by
  have hrun := scrapeRun_preserves w maxR limit fuel db cnt url row hnod hrow
    (by rw [hst]; intro h; cases h)
  refine ⟨?_, hrun.1, hrun.2.1, hrun.2.2⟩
  intro t ht
  rw [scrapeArticle, if_pos ?_]
  rw [isArticleScraped, ht]
  dsimp only
  rw [hst]
  rfl

/-- **C5, witness.**  A two-row store with one scraped and one pending
article: the scraped one is not processed, not fetched, and unchanged by a
full re-run. -/
theorem c5_rerun_never_touches_scraped_witness :
    lookupRow
        ([("s1", ⟨"t", .scraped, 0, none⟩), ("p1", ⟨"", .pending, 0, none⟩)] :
          ArticlesTable) "s1" =
      some ⟨"t", .scraped, 0, none⟩ ∧
    "s1" ∉ (scrapeRun
      ⟨fun _ => .page "T", fun _ => .ok []⟩ 3 0 3
      ⟨[("s1", ⟨"t", .scraped, 0, none⟩), ("p1", ⟨"", .pending, 0, none⟩)],
        [], []⟩ 0).2.1 :=
  ⟨by decide,
    (c5_rerun_never_touches_scraped ⟨fun _ => .page "T", fun _ => .ok []⟩
      3 0 3 0
      ⟨[("s1", ⟨"t", .scraped, 0, none⟩), ("p1", ⟨"", .pending, 0, none⟩)],
        [], []⟩
      "s1" ⟨"t", .scraped, 0, none⟩ (by decide) (by decide) rfl).2.1⟩

/-- **C6 (confirmed).**  A not-found article fetch issues exactly one
request (never retried), transitions the row to the terminal `unavailable`
status, and the article is thereafter invisible to both the pending and the
retriable-failed queries; a subsequent scrape run never processes or
re-fetches it and leaves it `unavailable`. -/
theorem c6_notfound_terminal (w : ScrapeWorld) (maxR limit fuel cnt : Nat)
    (db : Db) (url : String) (row : ArticleRow)
    (hf : w.fetch url = .notFound)
    (hmax : 1 ≤ maxR)
    (hnod : (db.articles.map Prod.fst).Nodup)
    (hrow : lookupRow db.articles url = some row)
    (hst : row.status ≠ ArtStatus.scraped) :
    scrapeArticle w maxR url db.articles =
      (none, markArticleUnavailable db.articles url, [url]) ∧
    lookupRow (markArticleUnavailable db.articles url) url =
      some { row with status := .unavailable } ∧
    (∀ n, url ∉ getPendingArticles (markArticleUnavailable db.articles url) n) ∧
    (∀ m, url ∉ getFailedArticles (markArticleUnavailable db.articles url) m) ∧
    (∀ db1 : Db, db1.articles = markArticleUnavailable db.articles url →
      (db1.articles.map Prod.fst).Nodup →
      url ∉ (scrapeRun w maxR limit fuel db1 cnt).2.1 ∧
      url ∉ (scrapeRun w maxR limit fuel db1 cnt).2.2 ∧
      lookupRow (scrapeRun w maxR limit fuel db1 cnt).1.articles url =
        some { row with status := .unavailable }) := by
  have hlook : lookupRow (markArticleUnavailable db.articles url) url =
      some { row with status := .unavailable } := by
    rw [markArticleUnavailable, lookupRow_updateRow_self, hrow]
    rfl
  refine ⟨?_, hlook, ?_, ?_, ?_⟩
  · have hns : isArticleScraped db.articles url = false := by
      rw [isArticleScraped, hrow]
      simpa using hst
    rw [scrapeArticle, if_neg (by simp [hns])]
    cases maxR with
    | zero => omega
    | succ n =>
      have hret : getWithRetry w url (n + 1) = (.noneResp, [url]) := by
        cases n with
        | zero =>
          rw [show getWithRetry w url 1 =
              (match w.fetch url with
               | .page t => (.got t, [url])
               | .notFound => (.noneResp, [url])
               | .err => (.raised, [url])) from rfl, hf]
        | succ k =>
          rw [show getWithRetry w url (k + 2) =
              (match w.fetch url with
               | .page t => (.got t, [url])
               | .notFound => (.noneResp, [url])
               | .err =>
                 ((getWithRetry w url (k + 1)).1,
                  url :: (getWithRetry w url (k + 1)).2)) from rfl, hf]
      rw [hret]
  · intro n
    refine not_mem_getPending_of_status ?_ hlook (by intro h; cases h)
    rw [markArticleUnavailable, keys_updateRow]
    exact hnod
  · intro m
    refine not_mem_getFailed_of_status ?_ hlook (by intro h; cases h)
    rw [markArticleUnavailable, keys_updateRow]
    exact hnod
  · intro db1 harts hnod1
    exact scrapeRun_preserves w maxR limit fuel db1 cnt url
      { row with status := .unavailable } hnod1 (harts ▸ hlook)
      (by intro h; cases h)

/-- **C6, witness.**  A pending article whose fetch 404s: one fetch, row
becomes unavailable, and a follow-up run does not process it. -/
theorem c6_notfound_terminal_witness :
    (⟨fun _ => FetchKind.notFound, fun _ => .ok []⟩ :
      ScrapeWorld).fetch "a1" = .notFound ∧
    scrapeArticle ⟨fun _ => FetchKind.notFound, fun _ => .ok []⟩ 3 "a1"
        [("a1", ⟨"", .pending, 0, none⟩)] =
      (none,
        markArticleUnavailable [("a1", ⟨"", .pending, 0, none⟩)] "a1",
        ["a1"]) :=
  ⟨rfl,
    (c6_notfound_terminal ⟨fun _ => FetchKind.notFound, fun _ => .ok []⟩
      3 0 2 0 ⟨[("a1", ⟨"", .pending, 0, none⟩)], [], []⟩ "a1"
      ⟨"", .pending, 0, none⟩ rfl (by omega) (by decide) (by decide)
      (by decide)).1⟩

/-! ## Helper lemmas: discovery idempotence -/

theorem addArchiveMonth_articles (db : Db) (ym : Nat × Nat) :
    (addArchiveMonth db ym).articles = db.articles := by
  rw [addArchiveMonth]
  by_cases h : hasMonth db ym
  · rw [if_pos h]
  · rw [if_neg h]

theorem scrapeMonth_articles (w : ArchiveWorld) (cfg : DiscoveryConfig)
    (y m : Nat) (db : Db) :
    (scrapeMonth w cfg y m db).2.articles = db.articles := by
  rw [scrapeMonth]
  by_cases hc : isMonthComplete db (y, m)
  · rw [if_pos hc]
  · rw [if_neg hc]
    cases fetchMonth w y m <;> rfl

theorem scrapeMonth_stubs_of_not_complete (w : ArchiveWorld)
    (cfg : DiscoveryConfig) (ym : Nat × Nat) (db : Db)
    (hc : isMonthComplete db ym = false) :
    (scrapeMonth w cfg ym.1 ym.2 db).1 = pureStubs w cfg ym := by
  rw [scrapeMonth, if_neg (by simpa using hc), pureStubs]
  cases fetchMonth w ym.1 ym.2 <;> rfl

theorem hasUrl_addArticleStub_mono (t : ArticlesTable) (s : Stub) (u : String)
    (h : hasUrl t u = true) : hasUrl (addArticleStub t s).1 u = true := by
  rw [addArticleStub]
  by_cases hp : hasUrl t s.url
  · rwa [if_pos hp]
  · rw [if_neg hp]
    rw [hasUrl] at h ⊢
    rw [List.any_append, h]
    rfl

theorem hasUrl_addArticleStub_self (t : ArticlesTable) (s : Stub) :
    hasUrl (addArticleStub t s).1 s.url = true := by
  rw [addArticleStub]
  by_cases hp : hasUrl t s.url
  · rwa [if_pos hp]
  · rw [if_neg hp]
    rw [hasUrl, List.any_append]
    simp

theorem addArticleStubs_mono :
    ∀ (ss : List Stub) (t : ArticlesTable) (u : String),
      hasUrl t u = true → hasUrl (addArticleStubs t ss).1 u = true := by
  intro ss
  induction ss with
  | nil => intro t u h; exact h
  | cons s rest ih =>
    intro t u h
    rw [addArticleStubs]
    exact ih (addArticleStub t s).1 u (hasUrl_addArticleStub_mono t s u h)

theorem addArticleStubs_all_present :
    ∀ (ss : List Stub) (t : ArticlesTable),
      ∀ s ∈ ss, hasUrl (addArticleStubs t ss).1 s.url = true := by
  intro ss
  induction ss with
  | nil => intro t s h; cases h
  | cons s0 rest ih =>
    intro t s hmem
    rw [addArticleStubs]
    rcases List.mem_cons.mp hmem with heq | htl
    · subst heq
      exact addArticleStubs_mono rest (addArticleStub t s).1 s.url
        (hasUrl_addArticleStub_self t s)
    · exact ih (addArticleStub t s0).1 s htl

theorem addArticleStubs_none_new :
    ∀ (ss : List Stub) (t : ArticlesTable),
      (∀ s ∈ ss, hasUrl t s.url = true) → addArticleStubs t ss = (t, 0) := by
  intro ss
  induction ss with
  | nil => intro t _; rfl
  | cons s rest ih =>
    intro t hall
    rw [addArticleStubs, addArticleStub, if_pos (hall s (by simp))]
    dsimp only
    rw [ih t (fun s0 h0 => hall s0 (by simp [h0]))]
    rfl

theorem hasMonth_of_complete (db : Db) (ym : Nat × Nat)
    (h : isMonthComplete db ym = true) : hasMonth db ym = true := by
  rw [isMonthComplete] at h
  cases hf : db.months.find? (fun e => e.1 == ym) with
  | none => rw [hf] at h; cases h
  | some e =>
    rw [hasMonth, List.any_eq_true]
    have hp := List.find?_some hf
    exact ⟨e, List.mem_of_find?_eq_some hf, hp⟩

theorem isMonthComplete_mark_mono (db : Db) (ym ym' : Nat × Nat) (n : Nat)
    (h : isMonthComplete db ym = true) :
    isMonthComplete (markMonthComplete db ym' n) ym = true := by
  by_cases he : ym = ym'
  · subst he
    exact isMonthComplete_mark_self db ym n (hasMonth_of_complete db ym h)
  · rwa [isMonthComplete_mark_other db ym ym' n he]

theorem discoverStep_hasUrl_mono (w : ArchiveWorld) (cfg : DiscoveryConfig)
    (db : Db) (ym : Nat × Nat) (u : String)
    (h : hasUrl db.articles u = true) :
    hasUrl (discoverStep w cfg db ym).1.articles u = true := by
  rw [discoverStep]
  by_cases hc : isMonthComplete (addArchiveMonth db ym) ym
  · rw [if_pos hc, addArchiveMonth_articles]
    exact h
  · rw [if_neg hc]
    rcases hsm : scrapeMonth w cfg ym.1 ym.2 (addArchiveMonth db ym)
      with ⟨stubs, db2⟩
    dsimp only
    rcases hst : addArticleStubs db2.articles stubs with ⟨arts, n⟩
    dsimp only
    have harts : db2.articles = db.articles := by
      have hx := scrapeMonth_articles w cfg ym.1 ym.2 (addArchiveMonth db ym)
      rw [hsm] at hx
      rw [hx, addArchiveMonth_articles]
    have := addArticleStubs_mono stubs db2.articles u (by rw [harts]; exact h)
    rw [hst] at this
    exact this

theorem discoverStep_complete_mono (w : ArchiveWorld) (cfg : DiscoveryConfig)
    (db : Db) (ym ym' : Nat × Nat)
    (h : isMonthComplete db ym = true) :
    isMonthComplete (discoverStep w cfg db ym').1 ym = true := by
  have h1 : isMonthComplete (addArchiveMonth db ym') ym = true := by
    rwa [isMonthComplete_addArchiveMonth]
  rw [discoverStep]
  by_cases hc : isMonthComplete (addArchiveMonth db ym') ym'
  · rwa [if_pos hc]
  · rw [if_neg hc]
    rcases hsm : scrapeMonth w cfg ym'.1 ym'.2 (addArchiveMonth db ym')
      with ⟨stubs, db2⟩
    dsimp only
    have h2 : isMonthComplete db2 ym = true := by
      revert hsm
      rw [scrapeMonth, if_neg (by simpa using hc)]
      cases fetchMonth w ym'.1 ym'.2 with
      | unavailable => intro hsm; cases hsm; exact h1
      | raisedPartial acc => intro hsm; cases hsm; exact h1
      | done all =>
        intro hsm
        cases hsm
        exact isMonthComplete_mark_mono _ ym _ _ h1
    exact h2

theorem discoverStep_establishes (w : ArchiveWorld) (cfg : DiscoveryConfig)
    (db : Db) (ym : Nat × Nat) :
    monthSettled w cfg (discoverStep w cfg db ym).1 ym := by
  rw [discoverStep]
  by_cases hc : isMonthComplete (addArchiveMonth db ym) ym
  · rw [if_pos hc]
    exact Or.inl hc
  · rw [if_neg hc]
    simp only [scrapeMonth]
    rw [if_neg (by simpa using hc)]
    cases hf : fetchMonth w ym.1 ym.2 with
    | unavailable =>
      dsimp only
      refine Or.inr (fun s hs => ?_)
      rw [pureStubs, hf] at hs
      cases hs
    | raisedPartial acc =>
      dsimp only
      refine Or.inr (fun s hs => ?_)
      rw [pureStubs, hf] at hs
      exact addArticleStubs_all_present acc _ s hs
    | done all =>
      dsimp only
      exact Or.inl (isMonthComplete_mark_self _ ym _
        (hasMonth_addArchiveMonth db ym))

theorem discoverStep_preserves_settled (w : ArchiveWorld)
    (cfg : DiscoveryConfig) (db : Db) (ym ym' : Nat × Nat)
    (h : monthSettled w cfg db ym) :
    monthSettled w cfg (discoverStep w cfg db ym').1 ym := by
  rcases h with h | h
  · exact Or.inl (discoverStep_complete_mono w cfg db ym ym' h)
  · exact Or.inr (fun s hs =>
      discoverStep_hasUrl_mono w cfg db ym' s.url (h s hs))

theorem discoverAll_preserves_settled (w : ArchiveWorld)
    (cfg : DiscoveryConfig) :
    ∀ (months : List (Nat × Nat)) (db : Db) (ym : Nat × Nat),
      monthSettled w cfg db ym →
      monthSettled w cfg (discoverAll w cfg months db).1 ym := by
  intro months
  induction months with
  | nil => intro db ym h; exact h
  | cons m ms ih =>
    intro db ym h
    rw [discoverAll]
    rcases hd : discoverStep w cfg db m with ⟨db1, n⟩
    dsimp only
    rcases hr : discoverAll w cfg ms db1 with ⟨db2, total⟩
    dsimp only
    have h1 : monthSettled w cfg db1 ym := by
      have hx := discoverStep_preserves_settled w cfg db ym m h
      rw [hd] at hx
      exact hx
    have h2 := ih db1 ym h1
    rw [hr] at h2
    exact h2

theorem discoverAll_settles (w : ArchiveWorld) (cfg : DiscoveryConfig) :
    ∀ (months : List (Nat × Nat)) (db : Db), ∀ ym ∈ months,
      monthSettled w cfg (discoverAll w cfg months db).1 ym := by
  intro months
  induction months with
  | nil => intro db ym h; cases h
  | cons m ms ih =>
    intro db ym hmem
    rw [discoverAll]
    rcases hd : discoverStep w cfg db m with ⟨db1, n⟩
    dsimp only
    rcases hr : discoverAll w cfg ms db1 with ⟨db2, total⟩
    dsimp only
    rcases List.mem_cons.mp hmem with heq | htl
    · subst heq
      have hx := discoverStep_establishes w cfg db ym
      rw [hd] at hx
      have hy := discoverAll_preserves_settled w cfg ms db1 ym hx
      rw [hr] at hy
      exact hy
    · have hy := ih db1 ym htl
      rw [hr] at hy
      exact hy

theorem discoverStep_of_settled (w : ArchiveWorld) (cfg : DiscoveryConfig)
    (db : Db) (ym : Nat × Nat) (h : monthSettled w cfg db ym) :
    (discoverStep w cfg db ym).1.articles = db.articles ∧
    (discoverStep w cfg db ym).2 = 0 := by
  rw [discoverStep]
  by_cases hc : isMonthComplete (addArchiveMonth db ym) ym
  · rw [if_pos hc]
    exact ⟨addArchiveMonth_articles db ym, rfl⟩
  · rw [if_neg hc]
    rcases h with h | h
    · exact absurd (by rwa [isMonthComplete_addArchiveMonth]) hc
    · rcases hsm : scrapeMonth w cfg ym.1 ym.2 (addArchiveMonth db ym)
        with ⟨stubs, db2⟩
      dsimp only
      have hstubs : stubs = pureStubs w cfg ym := by
        have hx := scrapeMonth_stubs_of_not_complete w cfg ym
          (addArchiveMonth db ym) (by simpa using hc)
        rw [hsm] at hx
        exact hx
      have harts : db2.articles = db.articles := by
        have hx := scrapeMonth_articles w cfg ym.1 ym.2 (addArchiveMonth db ym)
        rw [hsm] at hx
        rw [hx, addArchiveMonth_articles]
      have hnone : addArticleStubs db2.articles stubs = (db2.articles, 0) := by
        refine addArticleStubs_none_new stubs db2.articles ?_
        intro s hs
        rw [harts]
        exact h s (hstubs ▸ hs)
      rw [hnone]
      exact ⟨harts, rfl⟩

theorem discoverAll_zero_of_settled (w : ArchiveWorld) (cfg : DiscoveryConfig) :
    ∀ (months : List (Nat × Nat)) (db : Db),
      (∀ ym ∈ months, monthSettled w cfg db ym) →
      (discoverAll w cfg months db).1.articles = db.articles ∧
      (discoverAll w cfg months db).2 = 0 := by
  intro months
  induction months with
  | nil => intro db _; exact ⟨rfl, rfl⟩
  | cons m ms ih =>
    intro db hall
    rw [discoverAll]
    rcases hd : discoverStep w cfg db m with ⟨db1, n⟩
    dsimp only
    rcases hr : discoverAll w cfg ms db1 with ⟨db2, total⟩
    dsimp only
    have hstep := discoverStep_of_settled w cfg db m (hall m (by simp))
    rw [hd] at hstep
    dsimp only at hstep
    have hrest : ∀ ym ∈ ms, monthSettled w cfg db1 ym := by
      intro ym hym
      have hx := discoverStep_preserves_settled w cfg db ym m
        (hall ym (by simp [hym]))
      rw [hd] at hx
      exact hx
    have hih := ih db1 hrest
    rw [hr] at hih
    dsimp only at hih
    refine ⟨hih.1.trans hstep.1, ?_⟩
    rw [hstep.2, hih.2]

/-- **C7 (confirmed).**  Discovery is idempotent: a second run over the
same month range adds zero stub rows and leaves the articles table
unchanged — every month a run touches ends either marked complete (and is
skipped entirely thereafter) or with all the stubs its deterministic
re-walk would return already present, so the insert-or-ignore persistence
is a no-op. -/
theorem c7_discovery_idempotent (w : ArchiveWorld) (cfg : DiscoveryConfig)
    (sy sm ey em : Nat) (db0 : Db) :
    (discoverAll w cfg (genMonths sy sm ey em)
      (discoverAll w cfg (genMonths sy sm ey em) db0).1).2 = 0 ∧
    (discoverAll w cfg (genMonths sy sm ey em)
      (discoverAll w cfg (genMonths sy sm ey em) db0).1).1.articles =
      (discoverAll w cfg (genMonths sy sm ey em) db0).1.articles := by
  have hx := discoverAll_zero_of_settled w cfg (genMonths sy sm ey em)
    (discoverAll w cfg (genMonths sy sm ey em) db0).1
    (fun ym hym => discoverAll_settles w cfg (genMonths sy sm ey em) db0 ym hym)
  exact ⟨hx.2, hx.1⟩

end WUWT
